import Mathlib

/-!
Verification development for the `trial_data_ingestion` repository.

This file shallowly embeds the identifier-normalization, XML-cleaning,
PMC source-adapter and full-text-orchestrator code
(`src/ingestion_pipeline/preprocessing/doi_utils.py`,
`src/ingestion_pipeline/preprocessing/xml_cleaning.py`,
`src/ingestion_pipeline/sources/pmc.py`,
`src/ingestion_pipeline/preprocessing/fulltext_enricher.py`)
as executable Lean definitions, and proves properties of them.

Modelling conventions:
- Python `str` becomes `String` (a list of unicode scalar values, as in
  CPython, where `len` counts code points exactly like `String.length`).
- Python `str.strip()` strips the usual whitespace code points from both
  ends; `str.lower()` / `str.upper()` are modelled on the ASCII range,
  which is the range exercised by the DOI/JATS data this program handles.
- Python `dict` becomes an insertion-ordered association list; assignment
  to an existing key replaces the value in place, otherwise appends.
- Fallible code (HTTP calls, futures whose `.result()` re-raises) becomes
  `Except String` values; calls into the network become explicit oracles
  passed as function arguments.
- The thread pools in `run_fulltext` dispatch independent batches and merge
  the per-batch results; the merge is modelled sequentially in batch order
  (the merge is order-insensitive for the properties proved here, and a
  raised per-batch exception propagates out exactly as `fut.result()` does).
-/

/-! ## Python string primitives -/

/-- Whitespace code points stripped by Python `str.strip()`. -/
def pySpaceChars : List Char :=
  [' ', '\t', '\n', '\r', '\x0b', '\x0c', '\x1c', '\x1d', '\x1e', '\x1f',
   '\x85', '\xa0', '\u1680', '\u2000', '\u2001', '\u2002', '\u2003', '\u2004',
   '\u2005', '\u2006', '\u2007', '\u2008', '\u2009', '\u200a', '\u2028',
   '\u2029', '\u202f', '\u205f', '\u3000']

def pyIsSpace (c : Char) : Bool := pySpaceChars.contains c

/-- Right half of Python `str.strip()`: remove trailing whitespace. -/
def trimRight (l : List Char) : List Char :=
  (l.reverse.dropWhile pyIsSpace).reverse

/-- Python `str.strip()` on a list of code points. -/
def pyStripL (l : List Char) : List Char :=
  (trimRight l).dropWhile pyIsSpace

/-- Python `str.strip()`. -/
def strS (s : String) : String := String.mk (pyStripL s.data)

/-- The ASCII uppercase/lowercase pairs. -/
def lowerTable : List (Char × Char) :=
  [('A', 'a'), ('B', 'b'), ('C', 'c'), ('D', 'd'), ('E', 'e'), ('F', 'f'),
   ('G', 'g'), ('H', 'h'), ('I', 'i'), ('J', 'j'), ('K', 'k'), ('L', 'l'),
   ('M', 'm'), ('N', 'n'), ('O', 'o'), ('P', 'p'), ('Q', 'q'), ('R', 'r'),
   ('S', 's'), ('T', 't'), ('U', 'u'), ('V', 'v'), ('W', 'w'), ('X', 'x'),
   ('Y', 'y'), ('Z', 'z')]

/-- Python `str.lower()` on one code point (ASCII table; the identifiers
this pipeline lowercases are ASCII DOIs). -/
def pyLowerChar (c : Char) : Char :=
  match lowerTable.find? (fun p => p.1 == c) with
  | some p => p.2
  | none => c

/-- Python `str.upper()` on one code point (ASCII table). -/
def pyUpperChar (c : Char) : Char :=
  match lowerTable.find? (fun p => p.2 == c) with
  | some p => p.1
  | none => c

/-- Python `(d or "").strip().lower()` as used on DOI strings. -/
def pyLowerStripS (s : String) : String :=
  String.mk ((pyStripL s.data).map pyLowerChar)

/-! ## `doi_utils.normalize_doi` -/

/-- The zero-width space removed by `normalize_doi`. -/
def zwsp : Char := '\u200b'

/-- Case-insensitive (via the ASCII lower table) match of one pattern char. -/
def charCIEq (a b : Char) : Bool := pyLowerChar a == pyLowerChar b

/-- Drop `pat` from the front of `l`, comparing case-insensitively. -/
def dropCI : List Char → List Char → Option (List Char)
  | [], l => some l
  | _ :: _, [] => none
  | p :: ps, c :: cs => if charCIEq p c then dropCI ps cs else none

/-- One application of `re.sub(r"^https?://(dx\.)?doi\.org/", "", x, flags=re.I)`:
the pattern is anchored at position 0, so at most one occurrence is removed.
Returns `some rest` when the resolver-URL pattern matches at the front. -/
def dropResolverURL? (l : List Char) : Option (List Char) :=
  match dropCI ['h', 't', 't', 'p'] l with
  | none => none
  | some r1 =>
    match (match dropCI ['s', ':', '/', '/'] r1 with
           | some r2 => some r2
           | none => dropCI [':', '/', '/'] r1) with
    | none => none
    | some r3 =>
      match dropCI ['d', 'x', '.', 'd', 'o', 'i', '.', 'o', 'r', 'g', '/'] r3 with
      | some r => some r
      | none => dropCI ['d', 'o', 'i', '.', 'o', 'r', 'g', '/'] r3

def stripResolverURL (l : List Char) : List Char :=
  (dropResolverURL? l).getD l

/-- `doi_utils.normalize_doi`: strip, remove one leading resolver-URL
occurrence, drop zero-width spaces, strip again, lowercase; an empty result
is `None`. (The non-`str` input branch returning `None` is outside this
model: callers here always pass strings.) -/
def normalize_doi (x : String) : Option String :=
  let l1 := pyStripL x.data
  let l2 := stripResolverURL l1
  let l3 := l2.filter (fun c => c != zwsp)
  let l4 := pyStripL l3
  let l5 := l4.map pyLowerChar
  if l5.isEmpty then none else some (String.mk l5)

example : normalize_doi "  https://doi.org/10.1/ABC " = some "10.1/abc" := by decide
example : normalize_doi "https://doi.org/https://doi.org/10.1/a" =
    some "https://doi.org/10.1/a" := by decide
example : normalize_doi "   " = none := by decide

/-! ## XML trees (BeautifulSoup tags) and the nested-section model -/

/-- A parsed XML tree: element tags with children, and text nodes. -/
inductive Xml : Type where
  | el (tag : String) (children : List Xml)
  | txt (s : String)

def Xml.isElem : Xml → Bool
  | .el _ _ => true
  | .txt _ => false

/-- `tag.name == t` test on a node (text nodes match no name). -/
def tagIs (t : String) : Xml → Bool
  | .el tg _ => tg == t
  | .txt _ => false

/-! All element descendants of a node, in document (pre-)order, excluding
the node itself — the search space of BeautifulSoup `find` / `find_all`. -/
mutual
def descAll : Xml → List Xml
  | .txt _ => []
  | .el _ cs => descAllList cs
def descAllList : List Xml → List Xml
  | [] => []
  | c :: cs =>
    (match c with
     | .el t cc => Xml.el t cc :: descAll (Xml.el t cc)
     | .txt _ => []) ++ descAllList cs
end

/-- BeautifulSoup `x.find(t)`: first matching element descendant. -/
def findDesc (t : String) (x : Xml) : Option Xml :=
  (descAll x).find? (tagIs t)

/-- Element children with a given tag: `find_all(t, recursive=False)`. -/
def childElems (t : String) : Xml → List Xml
  | .txt _ => []
  | .el _ cs => cs.filter (tagIs t)

/-- The node itself (when an element) followed by its element descendants:
the search space of `find_all` on a soup obtained by re-parsing `str(x)`,
as done in `extract_abstract_text` and `linearize_body_to_fulltext`. -/
def selfDesc (x : Xml) : List Xml :=
  match x with
  | .el _ _ => x :: descAll x
  | .txt _ => descAll x

/-! Text leaves of a subtree in document order. -/
mutual
def textLeaves : Xml → List String
  | .txt s => [s]
  | .el _ cs => textLeavesList cs
def textLeavesList : List Xml → List String
  | [] => []
  | c :: cs => textLeaves c ++ textLeavesList cs
end

/-- BeautifulSoup `get_text(sep, strip=True)`: strip each string, drop the
empty ones, join with `sep`. All `get_text` calls in this code pass
`strip=True`. -/
def getText (sep : String) (x : Xml) : String :=
  String.intercalate sep (((textLeaves x).map strS).filter (fun s => s != ""))

/-- `xml_cleaning.DROP_TAGS`. -/
def dropTags : List String :=
  ["fig", "fig-group", "table", "table-wrap", "graphic", "media", "alternatives",
   "inline-formula", "disp-formula", "tex-math", "ref-list", "license", "permissions",
   "copyright-statement", "supplementary-material", "fn", "fn-group"]

def isDropEl (x : Xml) : Bool :=
  match x with
  | .el t _ => dropTags.contains t
  | .txt _ => false

/-! `for t in tag.find_all(list(DROP_TAGS)): t.decompose()` — remove every
denylisted element, at every nesting level. -/
mutual
def pruneDrop : Xml → Xml
  | .txt s => .txt s
  | .el t cs => .el t (pruneDropList cs)
def pruneDropList : List Xml → List Xml
  | [] => []
  | c :: cs => (if isDropEl c then [] else [pruneDrop c]) ++ pruneDropList cs
end

/-- Python `str.title()` (ASCII): an alphabetic char is uppercased after a
non-alphabetic boundary and lowercased otherwise. -/
def isAsciiAlpha (c : Char) : Bool :=
  decide ((97 ≤ c.toNat ∧ c.toNat ≤ 122) ∨ (65 ≤ c.toNat ∧ c.toNat ≤ 90))

def pyTitleGo : Bool → List Char → List Char
  | _, [] => []
  | prevCased, c :: cs =>
    if isAsciiAlpha c then
      (if prevCased then pyLowerChar c else pyUpperChar c) :: pyTitleGo true cs
    else c :: pyTitleGo false cs

def pyTitle (s : String) : String := String.mk (pyTitleGo false s.data)

/-- A value of the nested-section dictionary built by
`section_to_nested_dict`: an optional `"text"` entry followed by child
sections keyed by their (title-cased) titles, in insertion order. A child
key can never literally be `"text"` because `str.title()` output never is. -/
inductive SecNode : Type where
  | mk (text : Option String) (children : List (String × SecNode))

abbrev Forest := List (String × SecNode)

def SecNode.text : SecNode → Option String
  | .mk t _ => t

def SecNode.children : SecNode → Forest
  | .mk _ cs => cs

/-- Python `dict` assignment `d[k] = v` on an insertion-ordered association
list: replace in place when the key exists, else append. -/
def updIns {β : Type} (l : List (String × β)) (k : String) (v : β) : List (String × β) :=
  if l.any (fun p => p.1 == k) then
    l.map (fun p => if p.1 == k then (k, v) else p)
  else l ++ [(k, v)]

/-- `dict.update(d2)` on association lists. -/
def updInsMany {β : Type} (acc : List (String × β)) (kvs : List (String × β)) :
    List (String × β) :=
  kvs.foldl (fun a kv => updIns a kv.1 kv.2) acc

/-- The section title: `sec.find("title").get_text(strip=True).title()` with
default `"Untitled Section"`. In the source the title is read BEFORE the
denylisted elements are decomposed. -/
def secTitleOf (sec : Xml) : String :=
  match findDesc "title" sec with
  | some t => pyTitle (getText "" t)
  | none => "Untitled Section"

/-! Recursive core of `section_to_nested_dict`, operating on a subtree whose
denylisted elements have already been removed (the source decomposes them in
the outermost call, so recursive calls see an already-pruned tree and their
own decompose pass is a no-op). -/
mutual
def sGo : Xml → String × SecNode
  | .txt _ => ("Untitled Section", .mk none [])
  | .el t cs =>
    let title := secTitleOf (.el t cs)
    let paras := (cs.filter (tagIs "p")).map (getText " ")
    let text := strS (String.intercalate " " paras)
    (title, .mk (if text == "" then none else some text) (sGoKids cs []))
def sGoKids : List Xml → Forest → Forest
  | [], acc => acc
  | c :: cs, acc =>
    sGoKids cs (if tagIs "sec" c then (let kv := sGo c; updIns acc kv.1 kv.2) else acc)
end

/-- `xml_cleaning.section_to_nested_dict`: one `{title: node}` entry per
`<sec>`; the title is read from the unpruned subtree, the content from the
pruned one. The function never drops a section: it always produces exactly
one title-keyed entry, even when the node has no text and no children. -/
def section_to_nested_dict (sec : Xml) : String × SecNode :=
  (secTitleOf sec, (sGo (pruneDrop sec)).2)

/-- The `sections = {}; for s in secs: sections.update(section_to_nested_dict(s))`
loop of `pmc._parse_article` (and `springer.try_springer_jats`). -/
def forestOfSecs (secs : List Xml) : Forest :=
  secs.foldl (fun acc s => updIns acc (section_to_nested_dict s).1 (section_to_nested_dict s).2) []

/-- `xml_cleaning.linearize_body_to_fulltext`. -/
def linearize_body_to_fulltext (body : Xml) : Forest :=
  let b := pruneDrop body
  let ps := (((selfDesc b).filter (tagIs "p")).map (getText " ")).filter (fun s => s != "")
  let listChunks := ((selfDesc b).filter (tagIs "list")).filterMap (fun lst =>
    let items := ((childElems "list-item" lst).map (getText " ")).filter (fun s => s != "")
    if items.isEmpty then none
    else some (String.intercalate "\n" (items.map (fun it => "• " ++ it))))
  let quotes := (((selfDesc b).filter
      (fun x => tagIs "disp-quote" x || tagIs "boxed-text" x)).map (getText " ")).filter
      (fun s => s != "")
  let chunks := ps ++ listChunks ++ quotes
  let fullText := String.intercalate "\n\n" (chunks.filter (fun s => s != ""))
  if fullText == "" then [] else [("Full Text", .mk (some fullText) [])]

/-- `xml_cleaning.collapse_body_to_section`. -/
def collapse_body_to_section (body : Xml) : Forest :=
  let fullText := getText " " body
  if fullText == "" then [] else [("Full Text", .mk (some fullText) [])]

/-! The depth-first text collection of `xml_cleaning.sections_to_text`: the
node's own (stripped, non-empty) text first, then the children in insertion
order. -/
mutual
def secTexts : SecNode → List String
  | .mk t cs =>
    (match t with
     | some s => if strS s == "" then [] else [strS s]
     | none => []) ++ secTextsList cs
def secTextsList : List (String × SecNode) → List String
  | [] => []
  | c :: cs => secTexts c.2 ++ secTextsList cs
end

/-- `xml_cleaning.sections_to_text`. -/
def sections_to_text (forest : Forest) : String :=
  strS (String.intercalate "\n\n" (secTextsList forest))

/-- `xml_cleaning.extract_abstract_text`. -/
def extract_abstract_text (root : Xml) : Option String :=
  let abstracts := (selfDesc root).filter
    (fun x => tagIs "abstract" x || tagIs "trans-abstract" x)
  let parts := abstracts.foldr (fun ab acc =>
    (let secs := childElems "sec" ab
     if secs.isEmpty then
       let ps := childElems "p" ab
       if ps.isEmpty then
         (let t := getText " " ab; if t == "" then [] else [t])
       else (ps.map (getText " ")).filter (fun s => s != "")
     else secs.foldr (fun sec acc2 =>
       ((match findDesc "title" sec with
         | some t => if getText "" t == "" then [] else [getText "" t]
         | none => []) ++
        ((childElems "p" sec).map (getText " ")).filter (fun s => s != "")) ++ acc2) [])
    ++ acc) []
  let text := strS (String.intercalate "\n\n" (parts.filter (fun s => s != "")))
  if text == "" then none else some text

/-! ## `sources/pmc.py` -/

/-- The `(title, sections, {"abstract": ...})` tuple produced by
`_parse_article` and consumed by `run_fulltext` via `_unpack_result`. -/
structure Parsed where
  title : String
  sections : Forest
  abstract : Option String

/-- The title computed at the top of `pmc._parse_article`: default
`"Untitled"`, else the text of the first `article-title` under the first
`title-group`. -/
def parseTitleOf (art : Xml) : String :=
  match findDesc "title-group" art with
  | some tg =>
    match findDesc "article-title" tg with
    | some t => getText "" t
    | none => "Untitled"
  | none => "Untitled"

/-- `pmc._parse_article`: parse one `<article>` subtree. The body is looked
up in the whole article (hence also inside any `sub-article`); when no body
exists anywhere the function returns early with empty sections and the
front-matter abstract, never synthesizing body text from the rest of the
document. `.error` models the `(None, "No sections/text")` return. -/
def parse_article (art : Xml) : Except String (String × Forest × Option String) :=
  let title := parseTitleOf art
  let front := (findDesc "front" art).getD art
  let abstractText := extract_abstract_text front
  let body :=
    match findDesc "body" art with
    | some b => some b
    | none =>
      match findDesc "sub-article" art with
      | some sub => findDesc "body" sub
      | none => none
  match body with
  | none => .ok (title, [], abstractText)
  | some b =>
    let secs := childElems "sec" b
    let sections :=
      if secs.isEmpty then linearize_body_to_fulltext b else forestOfSecs secs
    if sections.isEmpty ∧ abstractText = none then .error "No sections/text"
    else .ok (title, sections, abstractText)

/-- One record of the NCBI idconv JSON response, as read by
`doi_to_pmcid_fetch_batch`: `rec.get("doi")` and `rec.get("pmcid")`. -/
structure IdconvRec where
  doi : String
  pmcid : Option String

/-- The outcome of one `sess.get(...)` attempt inside
`doi_to_pmcid_fetch_batch`: either a raised `requests.RequestException`
(caught by the adapter) or an HTTP response with a status code and, when
the status is 200, the parsed `records` array. -/
inductive HttpAttempt where
  | exn (msg : String)
  | resp (status : Nat) (records : List IdconvRec)

/-- The diagnostic string `last_err` receives from a failed attempt. -/
def attemptReason : HttpAttempt → String
  | .exn m => "idconv error: " ++ m
  | .resp s _ => "idconv HTTP " ++ toString s

/-- The 200 branch of `doi_to_pmcid_fetch_batch`: populate `out` from every
record with a truthy doi and pmcid, then fail every chunk member that was
not resolved. -/
def idconvParse200 (chunk : List String) (recs : List IdconvRec) :
    List (String × String) × List (String × String) :=
  let out := recs.foldl (fun acc rec =>
    let d := pyLowerStripS rec.doi
    match rec.pmcid with
    | some p => if d != "" && p != "" then updIns acc d p else acc
    | none => acc) []
  (out, (chunk.filter (fun d => !((out.map Prod.fst).contains d))).map
          (fun d => (d, "idconv: no PMCID")))

/-- Result of the modelled `doi_to_pmcid_fetch_batch`, extended with the
observable call/sleep trace (the `time.sleep(backoff ** (attempt + 1))`
politeness delays). The function is total: a `requests.RequestException`
is caught, never re-raised. -/
structure IdconvOut where
  out : List (String × String)
  fails : List (String × String)
  calls : Nat
  sleeps : List ℚ

/-- The `for attempt in range(max_retries)` retry loop of
`doi_to_pmcid_fetch_batch`. On a 200 response it parses and returns at once
(no sleep); on a network error or non-200 status it records the diagnostic,
sleeps `backoff ** (attempt + 1)`, and retries; when attempts are exhausted
every chunk member is failed with the last diagnostic. -/
def doiBatchGo (oracle : Nat → HttpAttempt) (chunk : List String) (backoff : ℚ) :
    Nat → Nat → Option String → IdconvOut
  | 0, _attempt, lastErr =>
    { out := [], fails := chunk.map (fun d => (d, lastErr.getD "idconv: unknown error")),
      calls := 0, sleeps := [] }
  | remaining + 1, attempt, _lastErr =>
    match oracle attempt with
    | .resp 200 recs =>
      let pr := idconvParse200 chunk recs
      { out := pr.1, fails := pr.2, calls := 1, sleeps := [] }
    | .resp s recs =>
      let rest := doiBatchGo oracle chunk backoff remaining (attempt + 1)
        (some (attemptReason (.resp s recs)))
      { rest with calls := rest.calls + 1, sleeps := backoff ^ (attempt + 1) :: rest.sleeps }
    | .exn m =>
      let rest := doiBatchGo oracle chunk backoff remaining (attempt + 1)
        (some (attemptReason (.exn m)))
      { rest with calls := rest.calls + 1, sleeps := backoff ^ (attempt + 1) :: rest.sleeps }

/-- `pmc.doi_to_pmcid_fetch_batch` (defaults `max_retries=3`,
`backoff=1.5`): normalize the batch to
`[(d or "").strip().lower() for d in dois if d]` and run the retry loop. -/
def doi_to_pmcid_fetch_batch (oracle : Nat → HttpAttempt) (dois : List String)
    (maxRetries : Nat) (backoff : ℚ) : IdconvOut :=
  doiBatchGo oracle ((dois.filter (fun d => d != "")).map pyLowerStripS)
    backoff maxRetries 0 none

/-! ## `fulltext_enricher.py` — the acquisition orchestrator -/

/-- One input row after `load_input_df`: a raw DOI and an optional journal. -/
structure Row where
  doi : String
  journal : Option String
deriving DecidableEq

/-- One entry of the `failures` list: `{"doi": ..., "journal": ..., "reason": ...}`. -/
structure FailureE where
  doi : String
  journal : Option String
  reason : String
deriving DecidableEq

/-- One persisted article record, as built by `canonicalize_record`. -/
structure Rec where
  doi : String
  title : String
  journal : Option String
  source : String
  pmcid : Option String
  sections : Forest

/-- `fulltext_enricher._body_len`. -/
def body_len (sections : Forest) : Nat :=
  (strS (sections_to_text sections)).length

/-- `fulltext_enricher.canonicalize_record`: the journal is kept only when
it is a string with non-whitespace content; an empty pmcid becomes null. -/
def canonicalize_record (doi title : String) (sections : Forest) (source : String)
    (pmcid : String) (journal : Option String) : Rec :=
  { doi, title,
    journal := match journal with
      | some s => if strS s == "" then none else some s
      | none => none,
    source,
    pmcid := if pmcid == "" then none else some pmcid,
    sections }

/-- Configuration surface of `run_fulltext` used by this model (defaults as
in the source). -/
structure Config where
  idconvChunk : Nat := 150
  efetchChunk : Nat := 80
  requireFulltext : Bool := true
  minFulltextChars : Int := 200
  skipSingleFallback : Bool := true

/-- Fuel-driven chunking loop (structural recursion so that the kernel can
evaluate it; the fuel is the list length, which bounds the recursion depth
for any chunk size `c ≥ 1`). -/
def chunkListGo {α : Type} (c : Nat) : Nat → List α → List (List α)
  | _, [] => []
  | 0, _ :: _ => []
  | fuel + 1, x :: xs => List.take c (x :: xs) :: chunkListGo c fuel (List.drop c (x :: xs))

/-- `xs[i:i+c] for i in range(0, len(xs), c)`: consecutive chunks of size at
most `c` (callers always pass `c ≥ 1`; Python raises on `c = 0`). -/
def chunkList {α : Type} (c : Nat) (l : List α) : List (List α) :=
  if c = 0 then [] else chunkListGo c l.length l

/-- A per-batch operation result: `(success_map, failures)`. -/
abbrev BatchRes (β : Type) := List (String × β) × List (String × String)

/-- The batched dispatch of `run_fulltext` (its `ThreadPoolExecutor` /
`as_completed` loops): call the per-batch operation on each batch and merge
`success_map.update(m)` / `failures.extend(fails)`. A per-batch call that
raises propagates out of the dispatch through `fut.result()` — the loop has
no exception handler, so the whole run raises and no failure entries are
recorded for that batch. -/
def mergeBatches {β : Type} (op : List String → Except String (BatchRes β)) :
    List (List String) → List (String × β) → List (String × String) →
    Except String (BatchRes β)
  | [], m, f => .ok (m, f)
  | b :: bs, m, f =>
    match op b with
    | .error e => .error e
    | .ok (mb, fb) => mergeBatches op bs (updInsMany m mb) (f ++ fb)

/-- The input dedup of `run_fulltext` (lines 128–129): attach
`doi_norm = normalize_doi(doi)`, drop rows whose normalization is `None`,
and keep the first row per normalized key. -/
def dedupPairs : List (Row × String) → List String → List (Row × String)
  | [], _ => []
  | p :: ps, seen =>
    if seen.contains p.2 then dedupPairs ps seen
    else p :: dedupPairs ps (p.2 :: seen)

def dfOf (rows : List Row) : List (Row × String) :=
  dedupPairs (rows.filterMap (fun r => (normalize_doi r.doi).map (fun dn => (r, dn)))) []

/-- `load_existing`'s `seen` set: the normalized DOIs of the prior records. -/
def seenOf (recs : List Rec) : List String :=
  recs.filterMap (fun rec => normalize_doi rec.doi)

/-- The worklist: rows whose normalized DOI is not already present. -/
def todoOf (rows : List Row) (existing : List Rec) : List (Row × String) :=
  (dfOf rows).filter (fun p => !((seenOf existing).contains p.2))

/-- `reason = next((r for d, r in conv_fails_all if d == dn), None) or "No PMCID"`:
the first conversion-failure reason recorded for this DOI, with a falsy
(missing or empty) reason replaced by `"No PMCID"`. -/
def reasonFor (convFails : List (String × String)) (dn : String) : String :=
  match convFails.find? (fun p => p.1 == dn) with
  | some p => if p.2 == "" then "No PMCID" else p.2
  | none => "No PMCID"

/-- One iteration of the Stage C assembly loop of `run_fulltext`
(lines 191–226): classify a deduplicated row into an appended record or a
failure entry. (`doi_seen.add(dn)` inside the loop is never read again and
has no observable effect; it is omitted.) -/
def classifyRow (doiToPmc : List (String × String)) (convFails : List (String × String))
    (pmcMap : List (String × Parsed)) (singleFetch : String → Option Parsed)
    (cfg : Config) (r : Row × String) : Rec ⊕ FailureE :=
  let dn := r.2
  match List.lookup dn doiToPmc with
  | none => .inr ⟨r.1.doi, r.1.journal, reasonFor convFails dn⟩
  | some pmcid =>
    if pmcid == "" then .inr ⟨r.1.doi, r.1.journal, reasonFor convFails dn⟩
    else
      let parsed :=
        match List.lookup pmcid pmcMap with
        | some p => some p
        | none => if cfg.skipSingleFallback then none else singleFetch pmcid
      match parsed with
      | some p =>
        if cfg.requireFulltext = true ∧ (body_len p.sections : Int) < max 0 cfg.minFulltextChars
        then .inr ⟨r.1.doi, r.1.journal, "abstract_only"⟩
        else .inl (canonicalize_record r.1.doi p.title p.sections "pmc" pmcid r.1.journal)
      | none =>
        .inr ⟨r.1.doi, r.1.journal,
          if cfg.skipSingleFallback then "PMC fetch failed (batched only)"
          else "PMC fetch failed (batched + single)"⟩

/-- The summary counters and final in-memory state of one `run_fulltext`
invocation: the rewritten result set, the current run's failure list, and
the counters written to `fulltext_summary.json`. -/
structure RunResult where
  records : List Rec
  failures : List FailureE
  appended : Nat
  skippedExisting : Nat
  inputUnique : Nat

/-- `fulltext_enricher.run_fulltext` (PMC-first, no Springer): dedup the
input, skip rows already present in the prior output, resolve DOI→PMCID in
batches, fetch PMC JATS in batches, then classify every outstanding row.
`idconvOp`/`efetchOp` are the per-batch operations (network calls); a batch
call that raises makes the whole run raise, exactly as the unguarded
`fut.result()` calls do. -/
def run_fulltext (rows : List Row) (existing : List Rec)
    (idconvOp : List String → Except String (BatchRes String))
    (efetchOp : List String → Except String (BatchRes Parsed))
    (singleFetch : String → Option Parsed) (cfg : Config) :
    Except String RunResult :=
  let df := dfOf rows
  let todo := todoOf rows existing
  let skippedExisting := df.length - todo.length
  let doisNorm := todo.map (fun p => p.2)
  match mergeBatches idconvOp (chunkList cfg.idconvChunk doisNorm) [] [] with
  | .error e => .error e
  | .ok (doiToPmc, convFails) =>
    let pmcids := doisNorm.filterMap (fun d => List.lookup d doiToPmc)
    match mergeBatches efetchOp (chunkList cfg.efetchChunk pmcids) [] [] with
    | .error e => .error e
    | .ok (pmcMap, _pmcFails) =>
      let outcomes := todo.map (classifyRow doiToPmc convFails pmcMap singleFetch cfg)
      let newRecs := outcomes.filterMap (fun o => o.getLeft?)
      let fails := outcomes.filterMap (fun o => o.getRight?)
      .ok { records := existing ++ newRecs, failures := fails,
            appended := newRecs.length, skippedExisting, inputUnique := df.length }

/-- The failure-ledger persistence of `run_fulltext` (lines 231–232): the
CSV is (over)written only when the current run produced at least one
failure; on a zero-failure run the previous ledger file is left in place. -/
def persistLedger (prev : Option (List FailureE)) (failures : List FailureE) :
    Option (List FailureE) :=
  if failures.isEmpty then prev else some failures

/-- A `<sec>` element all of whose children are denylisted elements
(e.g. only a table and a figure). -/
def onlyDenylistedChildren : Xml → Bool
  | .el _ cs => cs.all isDropEl
  | .txt _ => false

/-- Per-batch coverage contract of a `(success_map, failures)` result, as
the spec states it for `resolve_batches`' `per_batch_op`: every batch item
lands in exactly one side, and the result mentions only batch items. -/
def BatchCov {β : Type} (b : List String) (mb : List (String × β))
    (fb : List (String × String)) : Prop :=
  (∀ x ∈ b, x ∈ mb.map Prod.fst ∨ x ∈ fb.map Prod.fst) ∧
  (∀ x ∈ mb.map Prod.fst, x ∈ b) ∧
  (∀ x ∈ fb.map Prod.fst, x ∈ b) ∧
  (∀ x ∈ mb.map Prod.fst, x ∉ fb.map Prod.fst)

/-! ## Helper lemmas about stripping and lowering -/

theorem dropWhile_head?_false {α : Type} {p : α → Bool} {l : List α} {c : α}
    (h : (l.dropWhile p).head? = some c) : p c = false := by
  induction l with
  | nil => simp [List.dropWhile] at h
  | cons a l ih =>
    by_cases hpa : p a
    · rw [List.dropWhile_cons, if_pos hpa] at h
      exact ih h
    · rw [List.dropWhile_cons, if_neg hpa] at h
      simp at h
      subst h
      simpa using hpa

theorem dropWhile_getLast? {α : Type} {p : α → Bool} {l : List α}
    (h : l.dropWhile p ≠ []) : (l.dropWhile p).getLast? = l.getLast? := by
  induction l with
  | nil => simp [List.dropWhile] at h
  | cons a l ih =>
    by_cases hpa : p a
    · rw [List.dropWhile_cons, if_pos hpa] at h ⊢
      have hl : l ≠ [] := by
        intro he
        subst he
        simp [List.dropWhile] at h
      rw [ih h]
      cases l with
      | nil => exact absurd rfl hl
      | cons b l' => simp [List.getLast?_cons_cons]
    · rw [List.dropWhile_cons, if_neg hpa]

theorem dropWhile_eq_self_of_head {α : Type} {p : α → Bool} {l : List α}
    (h : ∀ c, l.head? = some c → p c = false) : l.dropWhile p = l := by
  cases l with
  | nil => rfl
  | cons a l =>
    rw [List.dropWhile_cons]
    simp [h a rfl]

theorem pyStripL_head {l : List Char} {c : Char} (h : (pyStripL l).head? = some c) :
    pyIsSpace c = false := by
  unfold pyStripL at h
  exact dropWhile_head?_false h

theorem pyStripL_getLast {l : List Char} {c : Char} (h : (pyStripL l).getLast? = some c) :
    pyIsSpace c = false := by
  unfold pyStripL at h
  have hne : (trimRight l).dropWhile pyIsSpace ≠ [] := by
    intro he
    rw [he] at h
    simp at h
  rw [dropWhile_getLast? hne] at h
  unfold trimRight at h
  rw [List.getLast?_reverse] at h
  exact dropWhile_head?_false h

theorem mem_pyStripL {l : List Char} {c : Char} (h : c ∈ pyStripL l) : c ∈ l := by
  unfold pyStripL trimRight at h
  have h1 := (List.dropWhile_sublist _).mem h
  rw [List.mem_reverse] at h1
  have h2 := (List.dropWhile_sublist _).mem h1
  rwa [List.mem_reverse] at h2

theorem lowerTable_facts : ∀ p ∈ lowerTable,
    pyIsSpace p.1 = false ∧ pyIsSpace p.2 = false ∧ p.1 ≠ zwsp ∧ p.2 ≠ zwsp ∧
    lowerTable.find? (fun q => q.1 == p.2) = none := by decide

theorem pyLowerChar_idem (c : Char) : pyLowerChar (pyLowerChar c) = pyLowerChar c := by
  cases h : lowerTable.find? (fun p => p.1 == c) with
  | none => simp only [pyLowerChar, h]
  | some p =>
    have hm := List.mem_of_find?_eq_some h
    have hf := (lowerTable_facts p hm).2.2.2.2
    simp only [pyLowerChar, h, hf]

theorem pyLowerChar_space (c : Char) : pyIsSpace (pyLowerChar c) = pyIsSpace c := by
  cases h : lowerTable.find? (fun p => p.1 == c) with
  | none => simp only [pyLowerChar, h]
  | some p =>
    have hm := List.mem_of_find?_eq_some h
    have hc : p.1 = c := by simpa using List.find?_some h
    have hf := lowerTable_facts p hm
    simp only [pyLowerChar, h]
    rw [hf.2.1, ← hc, hf.1]

theorem pyLowerChar_zwsp (c : Char) : pyLowerChar c = zwsp ↔ c = zwsp := by
  cases h : lowerTable.find? (fun p => p.1 == c) with
  | none => simp only [pyLowerChar, h]
  | some p =>
    have hm := List.mem_of_find?_eq_some h
    have hc : p.1 = c := by simpa using List.find?_some h
    have hf := lowerTable_facts p hm
    simp only [pyLowerChar, h]
    constructor
    · intro he
      exact absurd he hf.2.2.2.1
    · intro he
      rw [← hc] at he
      exact absurd he hf.2.2.1

/-- The normalized output shape is a fixed point of each normalization pass
(provided it does not again start with a resolver URL). -/
theorem normalized_canon (m : List Char)
    (hz : ∀ c ∈ m, c ≠ zwsp) :
    pyStripL ((pyStripL m).map pyLowerChar) = (pyStripL m).map pyLowerChar ∧
    ((pyStripL m).map pyLowerChar).filter (fun c => c != zwsp) = (pyStripL m).map pyLowerChar ∧
    ((pyStripL m).map pyLowerChar).map pyLowerChar = (pyStripL m).map pyLowerChar := by
  set l := (pyStripL m).map pyLowerChar with hl
  refine ⟨?_, ?_, ?_⟩
  · -- strip is the identity on l
    have htr : trimRight l = l := by
      unfold trimRight
      have : l.reverse.dropWhile pyIsSpace = l.reverse := by
        apply dropWhile_eq_self_of_head
        intro c hc
        rw [List.head?_reverse, hl, List.getLast?_map] at hc
        cases hg : (pyStripL m).getLast? with
        | none => rw [hg] at hc; simp at hc
        | some c' =>
          rw [hg] at hc
          simp at hc
          rw [← hc, pyLowerChar_space]
          exact pyStripL_getLast hg
      rw [this, List.reverse_reverse]
    unfold pyStripL
    rw [htr]
    apply dropWhile_eq_self_of_head
    intro c hc
    rw [hl, List.head?_map] at hc
    cases hg : (pyStripL m).head? with
    | none => rw [hg] at hc; simp at hc
    | some c' =>
      rw [hg] at hc
      simp at hc
      rw [← hc, pyLowerChar_space]
      exact pyStripL_head hg
  · rw [List.filter_eq_self]
    intro c hc
    rw [hl, List.mem_map] at hc
    obtain ⟨c', hc', rfl⟩ := hc
    have : c' ≠ zwsp := hz c' (mem_pyStripL hc')
    simpa using fun hcontra => this ((pyLowerChar_zwsp c').mp hcontra)
  · rw [hl, List.map_map]
    exact List.map_congr_left (fun c _ => pyLowerChar_idem c)

/-- `normalize_doi` is idempotent on every input whose normalized form does
not itself begin with a resolver-URL occurrence. -/
theorem normalize_doi_restricted_idem {x y : String}
    (hx : normalize_doi x = some y) (hy : dropResolverURL? y.data = none) :
    normalize_doi y = some y := by
  simp only [normalize_doi] at hx ⊢
  split at hx
  · simp at hx
  · rename_i hne
    have hyx : y = String.mk ((pyStripL ((stripResolverURL (pyStripL x.data)).filter
        (fun c => c != zwsp))).map pyLowerChar) := by
      injection hx with h
      exact h.symm
    set m := (stripResolverURL (pyStripL x.data)).filter (fun c => c != zwsp) with hm
    have hz : ∀ c ∈ m, c ≠ zwsp := by
      intro c hc
      rw [hm, List.mem_filter] at hc
      simpa using hc.2
    obtain ⟨h1, h2, h3⟩ := normalized_canon m hz
    have hdata : y.data = (pyStripL m).map pyLowerChar := by rw [hyx]
    have hres : stripResolverURL ((pyStripL m).map pyLowerChar) =
        (pyStripL m).map pyLowerChar := by
      unfold stripResolverURL
      rw [← hdata, hy]
      rfl
    have hemp : ((pyStripL m).map pyLowerChar).isEmpty = false := by
      simpa using hne
    rw [hdata, h1, hres, h2, h1, h3, hemp]
    simp only [Bool.false_eq_true, if_false]
    rw [hyx]

/-! ## Claim C3 — identifier-normalization idempotence -/

/-- Claim C3, counterexample: `normalize_doi` is NOT idempotent on every
string. The resolver-URL pattern is anchored, so each pass strips exactly
one occurrence: on an input carrying a doubled resolver URL the first pass
leaves a string that still starts with the resolver URL, and a second pass
strips it again, changing the result. -/
theorem c3_normalize_not_idem_cex :
    (normalize_doi "https://doi.org/https://doi.org/10.1/a").bind normalize_doi ≠
      normalize_doi "https://doi.org/https://doi.org/10.1/a" := by decide

/-- Claim C3 (amended): `normalize_doi` is idempotent on every input whose
normalized form does not itself begin with a resolver-URL occurrence (the
doubled-resolver inputs of the counterexample are the only exception), and
a resolver-URL-prefixed form normalizes to the same result as the bare
form (`"https://doi.org/10.1/ABC"` vs `"10.1/abc"`). -/
theorem c3_normalize_idem_amended :
    (∀ x y : String, normalize_doi x = some y → dropResolverURL? y.data = none →
        normalize_doi y = some y) ∧
    normalize_doi "https://doi.org/10.1/ABC" = normalize_doi "10.1/abc" := by
  constructor
  · intro x y hx hy
    exact normalize_doi_restricted_idem hx hy
  · decide

theorem c3_normalize_idem_amended_witness :
    normalize_doi "10.1/abc" = some "10.1/abc" :=
  c3_normalize_idem_amended.1 "https://doi.org/10.1/ABC" "10.1/abc" (by decide) (by decide)

/-! ## Association-list (Python dict) lemmas -/

theorem updIns_map_fst_of_any {β : Type} {l : List (String × β)} {k : String} {v : β}
    (h : l.any (fun p => p.1 == k) = true) :
    (updIns l k v).map Prod.fst = l.map Prod.fst := by
  unfold updIns
  rw [if_pos h]
  rw [List.map_map]
  apply List.map_congr_left
  intro p _
  by_cases hp : p.1 = k
  · simp [hp]
  · simp [hp]

theorem updIns_map_fst_of_not_any {β : Type} {l : List (String × β)} {k : String} {v : β}
    (h : ¬ l.any (fun p => p.1 == k) = true) :
    (updIns l k v).map Prod.fst = l.map Prod.fst ++ [k] := by
  unfold updIns
  rw [if_neg h]
  simp

theorem mem_updIns_keys {β : Type} (l : List (String × β)) (k k' : String) (v : β) :
    k' ∈ (updIns l k v).map Prod.fst ↔ k' ∈ l.map Prod.fst ∨ k' = k := by
  by_cases h : l.any (fun p => p.1 == k) = true
  · rw [updIns_map_fst_of_any h]
    constructor
    · exact Or.inl
    · rintro (hm | rfl)
      · exact hm
      · simp only [List.any_eq_true] at h
        obtain ⟨p, hp, hpk⟩ := h
        simp only [beq_iff_eq] at hpk
        rw [← hpk]
        exact List.mem_map_of_mem Prod.fst hp
  · rw [updIns_map_fst_of_not_any h]
    simp

theorem updIns_keys_nodup {β : Type} {l : List (String × β)} {k : String} {v : β}
    (h : (l.map Prod.fst).Nodup) : ((updIns l k v).map Prod.fst).Nodup := by
  by_cases hany : l.any (fun p => p.1 == k) = true
  · rwa [updIns_map_fst_of_any hany]
  · rw [updIns_map_fst_of_not_any hany]
    rw [List.nodup_append]
    refine ⟨h, List.nodup_singleton k, ?_⟩
    intro a ha hb
    simp only [List.mem_singleton] at hb
    subst hb
    simp only [List.any_eq_true, not_exists, not_and] at hany
    rw [List.mem_map] at ha
    obtain ⟨p, hp, hpa⟩ := ha
    exact absurd (by simpa using hpa) (by simpa using hany p hp)

theorem updIns_length_le {β : Type} (l : List (String × β)) (k : String) (v : β) :
    (updIns l k v).length ≤ l.length + 1 := by
  unfold updIns
  split
  · simp
  · simp

theorem updIns_length_ge {β : Type} (l : List (String × β)) (k : String) (v : β) :
    l.length ≤ (updIns l k v).length := by
  unfold updIns
  split
  · simp
  · simp

theorem lookup_map_updIns {β : Type} (l : List (String × β)) (k k' : String) (v : β) :
    List.lookup k' (l.map (fun p => if p.1 == k then (k, v) else p)) =
      if k' = k then (if l.any (fun p => p.1 == k) = true then some v else none)
      else List.lookup k' l := by
  induction l with
  | nil => simp
  | cons a l ih =>
    obtain ⟨a1, a2⟩ := a
    by_cases hak : a1 = k <;> by_cases hk' : k' = k
    · subst hk'
      simp [List.lookup_cons, List.any_cons, hak]
    · have h1 : (a1 == k) = true := by simpa using hak
      have h2 : (k' == k) = false := by simpa using hk'
      have h3 : (k' == a1) = false := by rw [hak]; exact h2
      simp only [List.map_cons, h1, if_true, List.lookup_cons, h2, h3, ih, if_neg hk',
        List.any_cons]
    · subst hk'
      have h1 : (a1 == k') = false := by simpa using hak
      have h3 : (k' == a1) = false := by simpa using fun h => hak h.symm
      simp only [List.map_cons, h1, Bool.false_eq_true, if_false, List.lookup_cons,
        h3, ih, if_pos rfl, List.any_cons]
      rw [Bool.false_or]
    · have h1 : (a1 == k) = false := by simpa using hak
      by_cases hka : k' = a1
      · have h3 : (k' == a1) = true := by simpa using hka
        simp only [List.map_cons, h1, Bool.false_eq_true, if_false, List.lookup_cons,
          h3, if_neg hk']
      · have h3 : (k' == a1) = false := by simpa using hka
        simp only [List.map_cons, h1, Bool.false_eq_true, if_false, List.lookup_cons,
          h3, ih, if_neg hk']

theorem lookup_updIns {β : Type} (l : List (String × β)) (k k' : String) (v : β) :
    List.lookup k' (updIns l k v) = if k' = k then some v else List.lookup k' l := by
  unfold updIns
  by_cases hany : l.any (fun p => p.1 == k) = true
  · rw [if_pos hany, lookup_map_updIns, if_pos hany]
  · rw [if_neg hany, List.lookup_append]
    by_cases hk' : k' = k
    · subst hk'
      have hnone : List.lookup k' l = none := by
        rw [List.lookup_eq_none_iff]
        intro b hb
        simp only [List.any_eq_true, not_exists, not_and] at hany
        have := hany b hb
        simp only [bne_iff_ne]
        intro hc
        exact absurd (by simpa using hc.symm) this
      rw [hnone, if_pos rfl]
      simp [List.lookup_cons]
    · have h2 : (k' == k) = false := by simpa using hk'
      simp [List.lookup_cons, h2, if_neg hk']

/-! ## Section-forest lemmas (claims C5 and C10) -/

theorem updIns_values {β : Type} {P : β → Prop} {l : List (String × β)} {k : String}
    {v : β} (hl : ∀ p ∈ l, P p.2) (hv : P v) : ∀ p ∈ updIns l k v, P p.2 := by
  intro p hp
  unfold updIns at hp
  split at hp
  · rw [List.mem_map] at hp
    obtain ⟨q, hq, hqe⟩ := hp
    by_cases hqk : q.1 = k
    · rw [if_pos (by simpa using hqk)] at hqe
      rw [← hqe]
      exact hv
    · rw [if_neg (by simpa using hqk)] at hqe
      rw [← hqe]
      exact hl q hq
  · rw [List.mem_append] at hp
    rcases hp with hp | hp
    · exact hl p hp
    · rw [List.mem_singleton] at hp
      rw [hp]
      exact hv

theorem pruneDropList_all_drop {cs : List Xml} (h : ∀ c ∈ cs, isDropEl c = true) :
    pruneDropList cs = [] := by
  induction cs with
  | nil => rfl
  | cons c cs ih =>
    rw [pruneDropList, if_pos (h c (List.mem_cons_self c cs))]
    simpa using ih (fun c hc => h c (List.mem_cons_of_mem _ hc))

theorem sGo_el_nil (t : String) :
    sGo (Xml.el t []) = ("Untitled Section", SecNode.mk none []) := rfl

/-- A section whose content is denylisted yields exactly one retained,
title-keyed entry with no text and no children. -/
theorem sectionToNested_all_drop {s : Xml} (h : onlyDenylistedChildren s = true) :
    section_to_nested_dict s = (secTitleOf s, SecNode.mk none []) := by
  cases s with
  | txt s0 => simp [onlyDenylistedChildren] at h
  | el t cs =>
    unfold section_to_nested_dict
    have hcs : ∀ c ∈ cs, isDropEl c = true := by
      simpa [onlyDenylistedChildren, List.all_eq_true] using h
    have hpr : pruneDrop (Xml.el t cs) = Xml.el t [] := by
      rw [pruneDrop, pruneDropList_all_drop hcs]
    rw [hpr, sGo_el_nil]

theorem forestFold_keys_nodup (secs : List Xml) (acc : Forest)
    (h : (acc.map Prod.fst).Nodup) :
    ((secs.foldl (fun acc s => updIns acc (section_to_nested_dict s).1 (section_to_nested_dict s).2)
        acc).map Prod.fst).Nodup := by
  induction secs generalizing acc with
  | nil => simpa
  | cons s rest ih =>
    rw [List.foldl_cons]
    exact ih _ (updIns_keys_nodup h)

theorem forestFold_length (secs : List Xml) (acc : Forest) :
    (secs.foldl (fun acc s => updIns acc (section_to_nested_dict s).1 (section_to_nested_dict s).2)
        acc).length ≤ acc.length + secs.length := by
  induction secs generalizing acc with
  | nil => simp
  | cons s rest ih =>
    rw [List.foldl_cons]
    have h1 := ih (updIns acc (section_to_nested_dict s).1 (section_to_nested_dict s).2)
    have h2 := updIns_length_le acc (section_to_nested_dict s).1 (section_to_nested_dict s).2
    simp only [List.length_cons]
    omega

theorem forestFold_length_ge (secs : List Xml) (acc : Forest) :
    acc.length ≤ (secs.foldl
      (fun acc s => updIns acc (section_to_nested_dict s).1 (section_to_nested_dict s).2) acc).length := by
  induction secs generalizing acc with
  | nil => simp
  | cons s rest ih =>
    rw [List.foldl_cons]
    have h1 := ih (updIns acc (section_to_nested_dict s).1 (section_to_nested_dict s).2)
    have h2 := updIns_length_ge acc (section_to_nested_dict s).1 (section_to_nested_dict s).2
    omega

theorem forestFold_values {P : SecNode → Prop} (secs : List Xml) (acc : Forest)
    (hacc : ∀ kv ∈ acc, P kv.2)
    (hsec : ∀ s ∈ secs, P (section_to_nested_dict s).2) :
    ∀ kv ∈ (secs.foldl
      (fun acc s => updIns acc (section_to_nested_dict s).1 (section_to_nested_dict s).2) acc), P kv.2 := by
  induction secs generalizing acc with
  | nil => simp only [List.foldl_nil]; exact hacc
  | cons s rest ih =>
    rw [List.foldl_cons]
    exact ih _ (updIns_values hacc (hsec s (List.mem_cons_self _ _)))
      (fun s' hs' => hsec s' (List.mem_cons_of_mem _ hs'))

theorem forestFold_lookup (secs : List Xml) (acc : Forest) (t : String) :
    List.lookup t (secs.foldl
        (fun acc s => updIns acc (section_to_nested_dict s).1 (section_to_nested_dict s).2) acc) =
      match secs.reverse.find? (fun s => (section_to_nested_dict s).1 == t) with
      | some s => some (section_to_nested_dict s).2
      | none => List.lookup t acc := by
  induction secs generalizing acc with
  | nil => simp
  | cons s rest ih =>
    rw [List.foldl_cons, ih, List.reverse_cons, List.find?_append]
    cases hfind : rest.reverse.find? (fun s => (section_to_nested_dict s).1 == t) with
    | some s' => simp [Option.or]
    | none =>
      simp only [Option.none_or]
      rw [lookup_updIns]
      by_cases hts : (section_to_nested_dict s).1 = t
      · rw [List.find?_cons_of_pos _ (by simpa using hts)]
        rw [if_pos hts.symm]
      · rw [List.find?_cons_of_neg _ (by simpa using hts), List.find?_nil]
        rw [if_neg (fun hc : t = (section_to_nested_dict s).1 => hts hc.symm)]

theorem secTextsList_empty {forest : Forest}
    (h : ∀ kv ∈ forest, kv.2 = SecNode.mk none []) : secTextsList forest = [] := by
  induction forest with
  | nil => rfl
  | cons kv rest ih =>
    rw [secTextsList, h kv (List.mem_cons_self _ _),
      ih (fun kv hk => h kv (List.mem_cons_of_mem _ hk))]
    rfl

/-! ## Claim C5 — empty section nodes are retained, not dropped -/

/-- Claim C5, counterexample: a markup subtree whose sections contain only
denylisted elements (one sec holding only a table, one holding only a
figure) does NOT normalize to an empty forest: both secs survive as a
single title-keyed entry `"Untitled Section"` whose node has no text and no
children — an empty node is retained, contradicting both halves of the
claim. -/
theorem c5_empty_forest_cex :
    forestOfSecs [Xml.el "sec" [Xml.el "table" [Xml.txt "1 2 3"]],
        Xml.el "sec" [Xml.el "fig" [Xml.txt "caption"]]] =
      [("Untitled Section", SecNode.mk none [])] ∧
    forestOfSecs [Xml.el "sec" [Xml.el "table" [Xml.txt "1 2 3"]],
        Xml.el "sec" [Xml.el "fig" [Xml.txt "caption"]]] ≠ ([] : Forest) := by
  have h : forestOfSecs [Xml.el "sec" [Xml.el "table" [Xml.txt "1 2 3"]],
      Xml.el "sec" [Xml.el "fig" [Xml.txt "caption"]]] =
      [("Untitled Section", SecNode.mk none [])] := rfl
  exact ⟨h, by rw [h]; exact List.cons_ne_nil _ _⟩

/-- Claim C5 (amended): the normalizer RETAINS section nodes with no text
and no children, keyed by their titles; a markup subtree whose sections
contain only denylisted elements normalizes to a NON-empty forest of such
empty nodes, whose flattened body text is nevertheless empty (so the
record is later rejected by the content-length gate as `abstract_only`,
not classified as a fetch failure via an empty forest). -/
theorem c5_empty_nodes_retained (secs : List Xml) (hne : secs ≠ [])
    (hdrop : ∀ s ∈ secs, onlyDenylistedChildren s = true) :
    forestOfSecs secs ≠ [] ∧
    (∀ kv ∈ forestOfSecs secs, kv.2 = SecNode.mk none []) ∧
    sections_to_text (forestOfSecs secs) = "" ∧
    body_len (forestOfSecs secs) = 0 := by
  have hvals : ∀ kv ∈ forestOfSecs secs, kv.2 = SecNode.mk none [] := by
    apply @forestFold_values (fun n => n = SecNode.mk none []) secs [] (by simp)
    intro s hs
    rw [sectionToNested_all_drop (hdrop s hs)]
  have htext : sections_to_text (forestOfSecs secs) = "" := by
    unfold sections_to_text
    rw [secTextsList_empty hvals]
    rfl
  refine ⟨?_, hvals, htext, ?_⟩
  · cases secs with
    | nil => exact absurd rfl hne
    | cons s rest =>
      intro hcontra
      have hge := forestFold_length_ge rest
        (updIns [] (section_to_nested_dict s).1 (section_to_nested_dict s).2)
      unfold forestOfSecs at hcontra
      rw [List.foldl_cons] at hcontra
      rw [hcontra] at hge
      simp [updIns] at hge
  · unfold body_len
    rw [htext]
    rfl

theorem c5_empty_nodes_retained_witness :
    forestOfSecs [Xml.el "sec" [Xml.el "table" [Xml.txt "x"]]] ≠ [] ∧
    (∀ kv ∈ forestOfSecs [Xml.el "sec" [Xml.el "table" [Xml.txt "x"]]],
      kv.2 = SecNode.mk none []) ∧
    sections_to_text (forestOfSecs [Xml.el "sec" [Xml.el "table" [Xml.txt "x"]]]) = "" ∧
    body_len (forestOfSecs [Xml.el "sec" [Xml.el "table" [Xml.txt "x"]]]) = 0 :=
  c5_empty_nodes_retained [Xml.el "sec" [Xml.el "table" [Xml.txt "x"]]]
    (List.cons_ne_nil _ _) (by decide)

/-! ## Claim C10 — duplicate sibling titles collapse, later wins -/

theorem sGoKids_nil (acc : Forest) : sGoKids [] acc = acc := rfl

theorem sGoKids_cons (c : Xml) (cs : List Xml) (acc : Forest) :
    sGoKids (c :: cs) acc =
      sGoKids cs (if tagIs "sec" c then updIns acc (sGo c).1 (sGo c).2 else acc) := rfl

theorem sGoKids_keys_nodup : ∀ (cs : List Xml) (acc : Forest),
    (acc.map Prod.fst).Nodup → ((sGoKids cs acc).map Prod.fst).Nodup := by
  intro cs
  induction cs with
  | nil =>
    intro acc h
    rwa [sGoKids_nil]
  | cons c cs ih =>
    intro acc h
    rw [sGoKids_cons]
    by_cases ht : tagIs "sec" c = true
    · rw [if_pos ht]
      exact ih _ (updIns_keys_nodup h)
    · rw [if_neg ht]
      exact ih _ h

theorem sGoKids_length : ∀ (cs : List Xml) (acc : Forest),
    (sGoKids cs acc).length ≤ acc.length + cs.length := by
  intro cs
  induction cs with
  | nil =>
    intro acc
    rw [sGoKids_nil]
    simp
  | cons c cs ih =>
    intro acc
    rw [sGoKids_cons]
    by_cases ht : tagIs "sec" c = true
    · rw [if_pos ht]
      have h1 := ih (updIns acc (sGo c).1 (sGo c).2)
      have h2 := updIns_length_le acc (sGo c).1 (sGo c).2
      simp only [List.length_cons]
      omega
    · rw [if_neg ht]
      have h1 := ih acc
      simp only [List.length_cons]
      omega

theorem sGoKids_lookup : ∀ (cs : List Xml) (acc : Forest) (t : String),
    List.lookup t (sGoKids cs acc) =
      match (cs.filter (tagIs "sec")).reverse.find? (fun c => (sGo c).1 == t) with
      | some c => some (sGo c).2
      | none => List.lookup t acc := by
  intro cs
  induction cs with
  | nil =>
    intro acc t
    rw [sGoKids_nil]
    rfl
  | cons c cs ih =>
    intro acc t
    rw [sGoKids_cons]
    by_cases ht : tagIs "sec" c = true
    · rw [if_pos ht, ih, List.filter_cons_of_pos ht, List.reverse_cons, List.find?_append]
      cases hfind : (cs.filter (tagIs "sec")).reverse.find? (fun c => (sGo c).1 == t) with
      | some c' => simp [Option.or]
      | none =>
        simp only [Option.none_or]
        rw [lookup_updIns]
        by_cases hts : (sGo c).1 = t
        · rw [List.find?_cons_of_pos _ (by simpa using hts)]
          rw [if_pos hts.symm]
        · rw [List.find?_cons_of_neg _ (by simpa using hts), List.find?_nil]
          rw [if_neg (fun hc : t = (sGo c).1 => hts hc.symm)]
    · rw [if_neg ht, ih, List.filter_cons_of_neg ht]

/-- Claim C10: sections AND child sections are keyed by their titles in a
dict, so duplicate sibling titles collapse to a single entry at both
levels. For the top-level body loop (`sections.update(...)`): retained
keys are duplicate-free, the number of retained entries never exceeds the
number of source sections, and lookup of a title yields the LAST sibling
section carrying it. For the child-insertion loop of
`section_to_nested_dict` (`section_dict[k] = v` over the direct child
secs, which builds `(sGo _).children` via `sGoKids`): the same three
properties hold among the sibling subsections of a section. Concretely,
two same-titled sibling sections of a body — and likewise two same-titled
sibling subsections of a section — leave a single entry holding the second
sibling's content. -/
theorem c10_duplicate_title_collapse :
    (∀ secs : List Xml, ((forestOfSecs secs).map Prod.fst).Nodup) ∧
    (∀ secs : List Xml, (forestOfSecs secs).length ≤ secs.length) ∧
    (∀ (secs : List Xml) (t : String),
      List.lookup t (forestOfSecs secs) =
        (secs.reverse.find? (fun s => (section_to_nested_dict s).1 == t)).map
          (fun s => (section_to_nested_dict s).2)) ∧
    (∀ (t : String) (cs : List Xml), ((sGo (Xml.el t cs)).2).children = sGoKids cs []) ∧
    (∀ cs : List Xml, ((sGoKids cs []).map Prod.fst).Nodup) ∧
    (∀ cs : List Xml, (sGoKids cs []).length ≤ cs.length) ∧
    (∀ (cs : List Xml) (t : String),
      List.lookup t (sGoKids cs []) =
        ((cs.filter (tagIs "sec")).reverse.find? (fun c => (sGo c).1 == t)).map
          (fun c => (sGo c).2)) ∧
    forestOfSecs [Xml.el "sec" [Xml.el "title" [Xml.txt "A"], Xml.el "p" [Xml.txt "one"]],
        Xml.el "sec" [Xml.el "title" [Xml.txt "A"], Xml.el "p" [Xml.txt "two"]]] =
      [("A", SecNode.mk (some "two") [])] ∧
    ((section_to_nested_dict (Xml.el "sec"
        [Xml.el "sec" [Xml.el "title" [Xml.txt "A"], Xml.el "p" [Xml.txt "one"]],
         Xml.el "sec" [Xml.el "title" [Xml.txt "A"], Xml.el "p" [Xml.txt "two"]]])).2).children =
      [("A", SecNode.mk (some "two") [])] := by
  refine ⟨?_, ?_, ?_, fun t cs => rfl, ?_, ?_, ?_, rfl, rfl⟩
  · intro secs
    exact forestFold_keys_nodup secs [] (by simp)
  · intro secs
    have := forestFold_length secs []
    unfold forestOfSecs
    simpa using this
  · intro secs t
    have := forestFold_lookup secs [] t
    unfold forestOfSecs
    rw [this]
    cases secs.reverse.find? (fun s => (section_to_nested_dict s).1 == t) with
    | some s => rfl
    | none => rfl
  · intro cs
    exact sGoKids_keys_nodup cs [] (by simp)
  · intro cs
    have := sGoKids_length cs []
    simpa using this
  · intro cs t
    rw [sGoKids_lookup cs [] t]
    cases (cs.filter (tagIs "sec")).reverse.find? (fun c => (sGo c).1 == t) with
    | some c => rfl
    | none => rfl

/-! ## Claim C7 — no body synthesis when the body element is absent -/

theorem descAllList_nil : descAllList [] = [] := by rw [descAllList.eq_def]

theorem descAllList_cons (c : Xml) (cs : List Xml) : descAllList (c :: cs) =
    (match c with
     | .el t cc => Xml.el t cc :: descAll (Xml.el t cc)
     | .txt _ => []) ++ descAllList cs := by rw [descAllList.eq_def]

theorem descAll_el (t : String) (cs : List Xml) : descAll (Xml.el t cs) = descAllList cs := by
  rw [descAll.eq_def]

theorem descAll_txt (s : String) : descAll (Xml.txt s) = [] := by rw [descAll.eq_def]

theorem mem_descAllList {cs : List Xml} {a : Xml} :
    a ∈ descAllList cs ↔ ∃ c ∈ cs, c.isElem = true ∧ (a = c ∨ a ∈ descAll c) := by
  induction cs with
  | nil => simp [descAllList_nil]
  | cons c cs ih =>
    rw [descAllList_cons, List.mem_append, ih]
    cases c with
    | txt s0 =>
      dsimp only
      constructor
      · rintro (hx | ⟨c', hc', hel, hx⟩)
        · simp at hx
        · exact ⟨c', List.mem_cons_of_mem _ hc', hel, hx⟩
      · rintro ⟨c', hc', hel, hx⟩
        rcases List.mem_cons.mp hc' with rfl | hc'
        · simp [Xml.isElem] at hel
        · exact Or.inr ⟨c', hc', hel, hx⟩
    | el t cc =>
      simp only [List.mem_cons]
      constructor
      · rintro (hx | ⟨c', hc', hel, hx⟩)
        · rcases hx with rfl | hx
          · exact ⟨Xml.el t cc, Or.inl rfl, rfl, Or.inl rfl⟩
          · exact ⟨Xml.el t cc, Or.inl rfl, rfl, Or.inr hx⟩
        · exact ⟨c', Or.inr hc', hel, hx⟩
      · rintro ⟨c', hc', hel, hx⟩
        rcases hc' with rfl | hc'
        · rcases hx with rfl | hx
          · exact Or.inl (Or.inl rfl)
          · exact Or.inl (Or.inr hx)
        · exact Or.inr ⟨c', hc', hel, hx⟩

theorem mem_descAll_trans : ∀ (art sub a : Xml),
    sub ∈ descAll art → a ∈ descAll sub → a ∈ descAll art
  | .txt s0, sub, a => fun hsub _ => by simp [descAll_txt] at hsub
  | .el t cs, sub, a => fun hsub ha => by
    rw [descAll_el, mem_descAllList] at hsub
    obtain ⟨c, hc, hcel, hx⟩ := hsub
    rw [descAll_el, mem_descAllList]
    rcases hx with rfl | hx
    · exact ⟨sub, hc, hcel, Or.inr ha⟩
    · have hlt : sizeOf c < sizeOf (Xml.el t cs) := by
        have h1 := List.sizeOf_lt_of_mem hc
        simp only [Xml.el.sizeOf_spec]
        omega
      exact ⟨c, hc, hcel, Or.inr (mem_descAll_trans c sub a hx ha)⟩
termination_by art _ _ => sizeOf art
decreasing_by
  exact hlt

theorem findDesc_none_sub {t : String} {art sub : Xml}
    (h : findDesc t art = none) (hsub : sub ∈ descAll art) :
    findDesc t sub = none := by
  unfold findDesc at h ⊢
  rw [List.find?_eq_none] at h ⊢
  intro x hx
  exact h x (mem_descAll_trans art sub x hsub hx)

/-- Claim C7: for every article markup with no `body` element anywhere (in
particular neither in the article nor inside a `sub-article`),
`_parse_article` returns empty sections together with whatever front-matter
abstract it finds — it never synthesizes body text from the rest of the
document. -/
theorem c7_no_body_synthesis (art : Xml) (h : findDesc "body" art = none) :
    parse_article art =
      .ok (parseTitleOf art, [],
        extract_abstract_text ((findDesc "front" art).getD art)) := by
  unfold parse_article
  rw [h]
  cases hsub : findDesc "sub-article" art with
  | none => rfl
  | some sub =>
    dsimp only
    rw [findDesc_none_sub h (List.mem_of_find?_eq_some hsub)]

theorem c7_no_body_synthesis_witness :
    parse_article (Xml.el "article"
        [Xml.el "front" [Xml.el "abstract" [Xml.el "p" [Xml.txt "Hi"]]]]) =
      .ok ("Untitled", [], some "Hi") := by
  have h := c7_no_body_synthesis (Xml.el "article"
    [Xml.el "front" [Xml.el "abstract" [Xml.el "p" [Xml.txt "Hi"]]]]) rfl
  exact h.trans rfl

/-! ## Claim C6 — idconv batch retry contract -/

theorem doiBatchGo_exhaust (oracle : Nat → HttpAttempt) (chunk : List String) (backoff : ℚ) :
    ∀ (remaining attempt : Nat) (lastErr : Option String),
      1 ≤ remaining →
      (∀ i, attempt ≤ i → i < attempt + remaining → ∀ recs, oracle i ≠ .resp 200 recs) →
      doiBatchGo oracle chunk backoff remaining attempt lastErr =
        { out := [],
          fails := chunk.map (fun d => (d, attemptReason (oracle (attempt + remaining - 1)))),
          calls := remaining,
          sleeps := (List.range remaining).map (fun j => backoff ^ (attempt + j + 1)) } := by
  intro remaining
  induction remaining with
  | zero => intro attempt lastErr h1 _; omega
  | succ r ih =>
    intro attempt lastErr _ hno
    have hnot200 : ∀ recs, oracle attempt ≠ .resp 200 recs :=
      fun recs => hno attempt (Nat.le_refl _) (by omega) recs
    have hsleep : ∀ rr : Nat,
        backoff ^ (attempt + 1) ::
            (List.range rr).map (fun j => backoff ^ (attempt + 1 + j + 1)) =
          (List.range (rr + 1)).map (fun j => backoff ^ (attempt + j + 1)) := by
      intro rr
      rw [List.range_succ_eq_map, List.map_cons, List.map_map]
      refine congrArg₂ _ rfl ?_
      apply List.map_congr_left
      intro j _
      have h2 : attempt + 1 + j + 1 = attempt + (j + 1) + 1 := by omega
      rw [h2]
      rfl
    rw [doiBatchGo]
    cases horacle : oracle attempt with
    | exn m =>
      dsimp only
      cases r with
      | zero =>
        rw [doiBatchGo]
        have hidx : attempt + 1 - 1 = attempt := by omega
        rw [hidx, horacle]
        rfl
      | succ r' =>
        rw [ih (attempt + 1) (some (attemptReason (HttpAttempt.exn m))) (by omega)
          (fun i h1 h2 rr => hno i (by omega) (by omega) rr)]
        dsimp only
        have hidx : attempt + 1 + (r' + 1) - 1 = attempt + (r' + 1 + 1) - 1 := by omega
        rw [hidx]
        simp only [IdconvOut.mk.injEq]
        exact ⟨trivial, trivial, trivial, hsleep (r' + 1)⟩
    | resp s recs =>
      have hs' : s ≠ 200 := by
        intro hcontra
        subst hcontra
        exact hnot200 recs (by rw [horacle])
      split
      · rename_i heq
        injection heq with h1 h2
        exact absurd h1 hs'
      · rename_i s2 recs2 heq
        injection heq with h1 h2
        subst h1
        subst h2
        cases r with
        | zero =>
          rw [doiBatchGo]
          have hidx : attempt + 1 - 1 = attempt := by omega
          rw [hidx, horacle]
          rfl
        | succ r' =>
          rw [ih (attempt + 1) (some (attemptReason (HttpAttempt.resp s recs))) (by omega)
            (fun i h1 h2 rr => hno i (by omega) (by omega) rr)]
          dsimp only
          have hidx : attempt + 1 + (r' + 1) - 1 = attempt + (r' + 1 + 1) - 1 := by omega
          rw [hidx]
          simp only [IdconvOut.mk.injEq]
          exact ⟨trivial, trivial, trivial, hsleep (r' + 1)⟩
      · rename_i m heq
        simp at heq

/-- Claim C6: `doi_to_pmcid_fetch_batch` retries its single bulk idconv call
up to the fixed `max_retries` ceiling, sleeping the exponential backoff
`backoff ^ (attempt + 1)` after each network error or non-200 status; when
all attempts are exhausted it raises nothing (the model is a total
function: `requests.RequestException` is caught), its success map is empty,
and every (truthy) identifier of the batch appears in the failure list
carrying the LAST attempt's diagnostic reason. -/
theorem c6_idconv_retry_exhaustion (oracle : Nat → HttpAttempt) (dois : List String)
    (maxRetries : Nat) (backoff : ℚ)
    (hpos : 1 ≤ maxRetries)
    (hfail : ∀ i, i < maxRetries → ∀ recs, oracle i ≠ .resp 200 recs)
    (hne : ∀ d ∈ dois, d ≠ "") :
    doi_to_pmcid_fetch_batch oracle dois maxRetries backoff =
      { out := [],
        fails := dois.map
          (fun d => (pyLowerStripS d, attemptReason (oracle (maxRetries - 1)))),
        calls := maxRetries,
        sleeps := (List.range maxRetries).map (fun j => backoff ^ (j + 1)) } := by
  unfold doi_to_pmcid_fetch_batch
  have hfilter : dois.filter (fun d => d != "") = dois := by
    rw [List.filter_eq_self]
    intro d hd
    simpa using hne d hd
  rw [hfilter]
  rw [doiBatchGo_exhaust oracle (dois.map pyLowerStripS) backoff maxRetries 0 none hpos
    (fun i h1 h2 recs => hfail i (by omega) recs)]
  simp only [IdconvOut.mk.injEq, Nat.zero_add]
  refine ⟨trivial, ?_, trivial, trivial⟩
  rw [List.map_map]
  rfl

theorem c6_idconv_retry_exhaustion_witness :
    doi_to_pmcid_fetch_batch (fun _ => .resp 500 []) ["10.1/A"] 3 2 =
      { out := [], fails := [("10.1/a", "idconv HTTP 500")], calls := 3,
        sleeps := [2, 4, 8] } := by
  rw [c6_idconv_retry_exhaustion (fun _ => .resp 500 []) ["10.1/A"] 3 2 (by omega)
    (fun i hi recs h => by simp at h) (by decide)]
  rfl

/-! ## Claim C1 — batched dispatch coverage -/

theorem chunkListGo_fuel {α : Type} (c : Nat) (hc : c ≠ 0) :
    ∀ (fuel fuel' : Nat) (l : List α), l.length ≤ fuel → l.length ≤ fuel' →
      chunkListGo c fuel l = chunkListGo c fuel' l := by
  intro fuel
  induction fuel with
  | zero =>
    intro fuel' l h1 _
    cases l with
    | nil => cases fuel' <;> rfl
    | cons x xs => simp at h1
  | succ f ih =>
    intro fuel' l h1 h2
    cases l with
    | nil => cases fuel' <;> rfl
    | cons x xs =>
      cases fuel' with
      | zero => simp at h2
      | succ f' =>
        rw [chunkListGo, chunkListGo]
        have hd : (List.drop c (x :: xs)).length ≤ f := by
          rw [List.length_drop]
          simp only [List.length_cons]
          simp only [List.length_cons] at h1
          omega
        have hd' : (List.drop c (x :: xs)).length ≤ f' := by
          rw [List.length_drop]
          simp only [List.length_cons]
          simp only [List.length_cons] at h2
          omega
        rw [ih f' (List.drop c (x :: xs)) hd hd']

theorem chunkList_nil {α : Type} (c : Nat) : chunkList c ([] : List α) = [] := by
  unfold chunkList
  split <;> rfl

theorem chunkList_cons {α : Type} (c : Nat) (hc : c ≠ 0) (x : α) (xs : List α) :
    chunkList c (x :: xs) =
      List.take c (x :: xs) :: chunkList c (List.drop c (x :: xs)) := by
  unfold chunkList
  rw [if_neg hc, if_neg hc]
  rw [show (x :: xs).length = xs.length + 1 from rfl]
  rw [chunkListGo]
  rw [chunkListGo_fuel c hc xs.length (List.drop c (x :: xs)).length (List.drop c (x :: xs))
    (by rw [List.length_drop]; simp; omega) (Nat.le_refl _)]

theorem chunkList_flatten {α : Type} (c : Nat) (hc : c ≠ 0) :
    ∀ l : List α, (chunkList c l).flatten = l := by
  have H : ∀ (n : Nat) (l : List α), l.length ≤ n → (chunkList c l).flatten = l := by
    intro n
    induction n with
    | zero =>
      intro l h
      cases l with
      | nil => simp [chunkList_nil]
      | cons x xs => simp at h
    | succ n ih =>
      intro l h
      cases l with
      | nil => simp [chunkList_nil]
      | cons x xs =>
        rw [chunkList_cons c hc, List.flatten_cons]
        have hlen : (List.drop c (x :: xs)).length ≤ n := by
          rw [List.length_drop]
          simp only [List.length_cons]
          simp only [List.length_cons] at h
          omega
        rw [ih (List.drop c (x :: xs)) hlen]
        exact List.take_append_drop c (x :: xs)
  exact fun l => H l.length l (Nat.le_refl _)

theorem mem_updInsMany_keys {β : Type} (kvs : List (String × β)) :
    ∀ (acc : List (String × β)) (k : String),
      k ∈ (updInsMany acc kvs).map Prod.fst ↔
        k ∈ acc.map Prod.fst ∨ k ∈ kvs.map Prod.fst := by
  induction kvs with
  | nil => intro acc k; simp [updInsMany]
  | cons kv rest ih =>
    intro acc k
    unfold updInsMany at ih ⊢
    rw [List.foldl_cons]
    rw [ih (updIns acc kv.1 kv.2) k]
    rw [mem_updIns_keys]
    simp only [List.map_cons, List.mem_cons]
    tauto

theorem mergeBatches_cov {β : Type} (op : List String → Except String (BatchRes β)) :
    ∀ (bs : List (List String)) (m : List (String × β)) (f : List (String × String)),
      (∀ b ∈ bs, ∃ mb fb, op b = .ok (mb, fb) ∧ BatchCov b mb fb) →
      bs.Pairwise List.Disjoint →
      (∀ x ∈ bs.flatten, x ∉ m.map Prod.fst ∧ x ∉ f.map Prod.fst) →
      ∃ M F, mergeBatches op bs m f = .ok (M, F) ∧
        (∀ x ∈ bs.flatten,
          (x ∈ M.map Prod.fst ∧ x ∉ F.map Prod.fst) ∨
          (x ∉ M.map Prod.fst ∧ x ∈ F.map Prod.fst)) ∧
        (∀ x, x ∉ bs.flatten →
          ((x ∈ M.map Prod.fst ↔ x ∈ m.map Prod.fst) ∧
           (x ∈ F.map Prod.fst ↔ x ∈ f.map Prod.fst)))
  | [], m, f, _, _, _ => ⟨m, f, rfl, by simp, fun x _ => ⟨Iff.rfl, Iff.rfl⟩⟩
  | b :: bs, m, f, hops, hdisj, hfresh => by
    obtain ⟨mb, fb, hop, hcov⟩ := hops b (List.mem_cons_self _ _)
    obtain ⟨hcv1, hcv2, hcv3, hcv4⟩ := hcov
    obtain ⟨hdhead, hdtail⟩ := List.pairwise_cons.mp hdisj
    have hbnotrest : ∀ x ∈ b, x ∉ bs.flatten := by
      intro x hx hmem
      rw [List.mem_flatten] at hmem
      obtain ⟨b', hb', hxb'⟩ := hmem
      exact hdhead b' hb' hx hxb'
    have hfresh' : ∀ x ∈ bs.flatten,
        x ∉ (updInsMany m mb).map Prod.fst ∧ x ∉ (f ++ fb).map Prod.fst := by
      intro x hx
      have hxb : x ∉ b := by
        intro hxb
        exact hbnotrest x hxb hx
      have hf := hfresh x (by rw [List.flatten_cons, List.mem_append]; exact Or.inr hx)
      constructor
      · rw [mem_updInsMany_keys]
        rintro (hm | hmb)
        · exact hf.1 hm
        · exact hxb (hcv2 x hmb)
      · rw [List.map_append, List.mem_append]
        rintro (hfm | hfb)
        · exact hf.2 hfm
        · exact hxb (hcv3 x hfb)
    obtain ⟨M, F, hmerge, hcover, hstable⟩ :=
      mergeBatches_cov op bs (updInsMany m mb) (f ++ fb)
        (fun b' hb' => hops b' (List.mem_cons_of_mem _ hb')) hdtail hfresh'
    refine ⟨M, F, ?_, ?_, ?_⟩
    · rw [mergeBatches, hop]
      exact hmerge
    · intro x hx
      rw [List.flatten_cons, List.mem_append] at hx
      rcases hx with hxb | hxrest
      · have hxnr : x ∉ bs.flatten := hbnotrest x hxb
        have hst := hstable x hxnr
        have hf := hfresh x (by rw [List.flatten_cons, List.mem_append]; exact Or.inl hxb)
        rcases hcv1 x hxb with hmb | hfb
        · left
          constructor
          · rw [hst.1, mem_updInsMany_keys]
            exact Or.inr hmb
          · rw [hst.2, List.map_append, List.mem_append]
            rintro (hfm | hfbm)
            · exact hf.2 hfm
            · exact hcv4 x hmb hfbm
        · right
          constructor
          · rw [hst.1, mem_updInsMany_keys]
            rintro (hm | hmb)
            · exact hf.1 hm
            · exact hcv4 x hmb hfb
          · rw [hst.2, List.map_append, List.mem_append]
            exact Or.inr hfb
      · exact hcover x hxrest
    · intro x hx
      have hxb : x ∉ b := by
        intro hxb
        exact hx (by rw [List.flatten_cons, List.mem_append]; exact Or.inl hxb)
      have hxrest : x ∉ bs.flatten := by
        intro hxr
        exact hx (by rw [List.flatten_cons, List.mem_append]; exact Or.inr hxr)
      have hst := hstable x hxrest
      constructor
      · rw [hst.1, mem_updInsMany_keys]
        constructor
        · rintro (hm | hmb)
          · exact hm
          · exact absurd (hcv2 x hmb) hxb
        · exact Or.inl
      · rw [hst.2, List.map_append, List.mem_append]
        constructor
        · rintro (hfm | hfb)
          · exact hfm
          · exact absurd (hcv3 x hfb) hxb
        · exact Or.inl

/-- Claim C1 (amended): when every per-batch call returns a
`(success_map, failures)` pair satisfying the per-batch coverage contract
(as the repository's batch helpers do, converting errors into failure
lists instead of raising), the merged dispatch of `run_fulltext` places
every input item in exactly one of the merged success map and the merged
failure list. A per-batch call that raises, however, propagates out of the
dispatch (see the counterexample): the items are NOT converted into
failure entries. -/
theorem c1_dispatch_coverage_amended (items : List String) (c : Nat)
    (op : List String → Except String (BatchRes String))
    (hc : c ≠ 0) (hnd : items.Nodup)
    (hop : ∀ b ∈ chunkList c items, ∃ mb fb, op b = .ok (mb, fb) ∧ BatchCov b mb fb) :
    ∃ M F, mergeBatches op (chunkList c items) [] [] = .ok (M, F) ∧
      ∀ x ∈ items,
        (x ∈ M.map Prod.fst ∧ x ∉ F.map Prod.fst) ∨
        (x ∉ M.map Prod.fst ∧ x ∈ F.map Prod.fst) := by
  have hflat := chunkList_flatten c hc items
  have hnd' : (chunkList c items).flatten.Nodup := by rwa [hflat]
  have hdisj := (List.nodup_flatten.mp hnd').2
  obtain ⟨M, F, hmerge, hcover, _⟩ :=
    mergeBatches_cov op (chunkList c items) [] [] hop hdisj (by simp)
  refine ⟨M, F, hmerge, fun x hx => hcover x ?_⟩
  rwa [hflat]

theorem c1_dispatch_coverage_amended_witness :
    ∃ M F, mergeBatches
        (fun b => .ok (if b = ["10.1/a"] then ([("10.1/a", "PMC1")], []) else
          ([], b.map (fun d => (d, "idconv: no PMCID")))))
        (chunkList 1 ["10.1/a", "10.1/b"]) [] [] = .ok (M, F) ∧
      ∀ x ∈ ["10.1/a", "10.1/b"],
        (x ∈ M.map Prod.fst ∧ x ∉ F.map Prod.fst) ∨
        (x ∉ M.map Prod.fst ∧ x ∈ F.map Prod.fst) := by
  apply c1_dispatch_coverage_amended ["10.1/a", "10.1/b"] 1 _ (by decide) (by decide)
  intro b hb
  rw [show chunkList 1 ["10.1/a", "10.1/b"] = [["10.1/a"], ["10.1/b"]] from rfl] at hb
  rcases List.mem_cons.mp hb with rfl | hb2
  · exact ⟨[("10.1/a", "PMC1")], [], rfl, by unfold BatchCov; decide⟩
  · rcases List.mem_cons.mp hb2 with rfl | hb3
    · exact ⟨[], [("10.1/b", "idconv: no PMCID")], rfl, by unfold BatchCov; decide⟩
    · simp at hb3

/-- Claim C1, counterexample: a batch whose per-batch operation raises is
silently LOST rather than converted into failure entries — the exception
propagates out of `run_fulltext` (the `fut.result()` calls are unguarded),
so the dispatch never completes and `"10.1/a"` ends in neither the success
map nor the failure list. -/
theorem c1_batch_raise_cex :
    run_fulltext [⟨"10.1/a", none⟩] []
      (fun _ => .error "batch operation error: boom")
      (fun _ => .ok ([], [])) (fun _ => none) {} =
      .error "batch operation error: boom" := rfl

/-! ## Claim C9 — summary-counter conservation -/

theorem filterMap_sum_length {α β γ : Type} (f : α → β ⊕ γ) (l : List α) :
    ((l.map f).filterMap (fun o => o.getLeft?)).length +
      ((l.map f).filterMap (fun o => o.getRight?)).length = l.length := by
  induction l with
  | nil => rfl
  | cons a l ih =>
    rw [List.map_cons, List.filterMap_cons, List.filterMap_cons]
    cases h : f a with
    | inl b =>
      simp only [h, Sum.getLeft?_inl, Sum.getRight?_inl, List.length_cons]
      omega
    | inr c =>
      simp only [h, Sum.getLeft?_inr, Sum.getRight?_inr, List.length_cons]
      omega

/-- Claim C9: whenever `run_fulltext` completes, each deduplicated input
identifier receives exactly one outcome, so the summary satisfies
`input_unique_doi = appended + skipped_existing + failures`. -/
theorem c9_summary_conservation (rows : List Row) (existing : List Rec)
    (idconvOp : List String → Except String (BatchRes String))
    (efetchOp : List String → Except String (BatchRes Parsed))
    (singleFetch : String → Option Parsed) (cfg : Config) (res : RunResult)
    (h : run_fulltext rows existing idconvOp efetchOp singleFetch cfg = .ok res) :
    res.inputUnique = res.appended + res.skippedExisting + res.failures.length := by
  unfold run_fulltext at h
  dsimp only at h
  split at h
  · simp at h
  · rename_i pairA doiToPmc convFails hA
    split at h
    · simp at h
    · rename_i pairB pmcMap pmcFails hB
      injection h with h
      subst h
      dsimp only
      have hsum := filterMap_sum_length
        (classifyRow doiToPmc convFails pmcMap singleFetch cfg) (todoOf rows existing)
      have hle : (todoOf rows existing).length ≤ (dfOf rows).length :=
        List.length_filter_le _ _
      omega

theorem c9_summary_conservation_witness :
    ((⟨[], [⟨"10.1/a", none, "idconv: no PMCID"⟩], 0, 0, 1⟩ : RunResult)).inputUnique =
      (⟨[], [⟨"10.1/a", none, "idconv: no PMCID"⟩], 0, 0, 1⟩ : RunResult).appended +
      (⟨[], [⟨"10.1/a", none, "idconv: no PMCID"⟩], 0, 0, 1⟩ : RunResult).skippedExisting +
      (⟨[], [⟨"10.1/a", none, "idconv: no PMCID"⟩], 0, 0, 1⟩ : RunResult).failures.length :=
  c9_summary_conservation [⟨"10.1/a", none⟩] []
    (fun b => .ok ([], b.map (fun d => (d, "idconv: no PMCID"))))
    (fun _ => .ok ([], [])) (fun _ => none) {}
    ⟨[], [⟨"10.1/a", none, "idconv: no PMCID"⟩], 0, 0, 1⟩ rfl

/-! ## Claim C4 — content-length gate boundary -/

/-- A single fresh row whose DOI resolves to one PMCID and whose PMCID
fetches one parsed article runs the whole pipeline down to the single
`classifyRow` outcome. -/
theorem run_fulltext_single (r : Row) (dn pm : String) (p : Parsed)
    (A : List String → Except String (BatchRes String))
    (B : List String → Except String (BatchRes Parsed))
    (sf : String → Option Parsed) (cfg : Config)
    (hdn : normalize_doi r.doi = some dn)
    (hA : A [dn] = .ok ([(dn, pm)], []))
    (hB : B [pm] = .ok ([(pm, p)], []))
    (hca : cfg.idconvChunk ≠ 0) (hcb : cfg.efetchChunk ≠ 0) :
    run_fulltext [r] [] A B sf cfg =
      match classifyRow [(dn, pm)] [] [(pm, p)] sf cfg (r, dn) with
      | .inl rec => .ok ⟨[rec], [], 1, 0, 1⟩
      | .inr fe => .ok ⟨[], [fe], 0, 0, 1⟩ := by
  have hdf : dfOf [r] = [(r, dn)] := by
    unfold dfOf
    rw [List.filterMap_cons]
    simp [hdn, dedupPairs]
  have htodo : todoOf [r] [] = [(r, dn)] := by
    unfold todoOf
    rw [hdf]
    simp [seenOf]
  have hchunk : ∀ (β : Type) (c : Nat), c ≠ 0 → ∀ x : β, chunkList c [x] = [[x]] := by
    intro β c hc x
    rw [chunkList_cons c hc]
    rw [List.take_of_length_le (by simp; omega), List.drop_of_length_le (by simp; omega)]
    rw [chunkList_nil]
  have hmA : mergeBatches A (chunkList cfg.idconvChunk [dn]) [] [] =
      .ok ([(dn, pm)], []) := by
    rw [hchunk String cfg.idconvChunk hca dn]
    rw [mergeBatches, hA]
    dsimp only
    rw [mergeBatches]
    simp [updInsMany, updIns]
  have hmB : mergeBatches B (chunkList cfg.efetchChunk [pm]) [] [] =
      .ok ([(pm, p)], []) := by
    rw [hchunk String cfg.efetchChunk hcb pm]
    rw [mergeBatches, hB]
    dsimp only
    rw [mergeBatches]
    simp [updInsMany, updIns]
  unfold run_fulltext
  rw [hdf, htodo]
  dsimp only
  rw [show List.map (fun p => p.2) [(r, dn)] = [dn] from rfl]
  rw [hmA]
  dsimp only
  rw [show List.filterMap (fun d => List.lookup d [(dn, pm)]) [dn] = [pm] by
    simp [List.lookup_cons_self]]
  rw [hmB]
  dsimp only
  cases hcl : classifyRow [(dn, pm)] [] [(pm, p)] sf cfg (r, dn) with
  | inl rec =>
    rw [show List.map (classifyRow [(dn, pm)] [] [(pm, p)] sf cfg) [(r, dn)] =
      [Sum.inl rec] by rw [List.map_cons]; rw [hcl]; rfl]
    rfl
  | inr fe =>
    rw [show List.map (classifyRow [(dn, pm)] [] [(pm, p)] sf cfg) [(r, dn)] =
      [Sum.inr fe] by rw [List.map_cons]; rw [hcl]; rfl]
    rfl

/-- The Stage C gate: with `require_fulltext` on, a parsed article whose
body length is `min_fulltext_chars - 1` is classified `abstract_only`; at
exactly `min_fulltext_chars` it is accepted. -/
theorem classifyRow_gate (r : Row) (dn pm : String) (p : Parsed)
    (sf : String → Option Parsed) (cfg : Config)
    (hpm : pm ≠ "") (hreq : cfg.requireFulltext = true)
    (hmin : 1 ≤ cfg.minFulltextChars) :
    ((body_len p.sections : Int) = cfg.minFulltextChars - 1 →
      classifyRow [(dn, pm)] [] [(pm, p)] sf cfg (r, dn) =
        .inr ⟨r.doi, r.journal, "abstract_only"⟩) ∧
    ((body_len p.sections : Int) = cfg.minFulltextChars →
      classifyRow [(dn, pm)] [] [(pm, p)] sf cfg (r, dn) =
        .inl (canonicalize_record r.doi p.title p.sections "pmc" pm r.journal)) := by
  have hmax : max 0 cfg.minFulltextChars = cfg.minFulltextChars :=
    max_eq_right (by omega)
  have hbeq : (pm == "") = false := by simpa using hpm
  constructor
  · intro hlen
    unfold classifyRow
    dsimp only
    rw [List.lookup_cons_self]
    dsimp only
    rw [hbeq]
    simp only [Bool.false_eq_true, if_false]
    rw [List.lookup_cons_self]
    dsimp only
    rw [if_pos ⟨hreq, by rw [hlen, hmax]; omega⟩]
  · intro hlen
    unfold classifyRow
    dsimp only
    rw [List.lookup_cons_self]
    dsimp only
    rw [hbeq]
    simp only [Bool.false_eq_true, if_false]
    rw [List.lookup_cons_self]
    dsimp only
    rw [if_neg (fun hcontra => by rw [hlen, hmax] at hcontra; omega)]

/-- Claim C4: in `run_fulltext` with `require_fulltext` enabled, a fetched
article whose flattened body text has length exactly
`min_fulltext_chars - 1` is recorded as a failure with reason
`"abstract_only"`, and one whose body text has length exactly
`min_fulltext_chars` is appended as an accepted record. -/
theorem c4_content_length_gate (r : Row) (dn pm : String) (p1 p2 : Parsed)
    (A : List String → Except String (BatchRes String))
    (B1 B2 : List String → Except String (BatchRes Parsed))
    (sf : String → Option Parsed) (cfg : Config)
    (hdn : normalize_doi r.doi = some dn)
    (hA : A [dn] = .ok ([(dn, pm)], []))
    (hB1 : B1 [pm] = .ok ([(pm, p1)], []))
    (hB2 : B2 [pm] = .ok ([(pm, p2)], []))
    (hpm : pm ≠ "") (hca : cfg.idconvChunk ≠ 0) (hcb : cfg.efetchChunk ≠ 0)
    (hreq : cfg.requireFulltext = true) (hmin : 1 ≤ cfg.minFulltextChars)
    (hl1 : (body_len p1.sections : Int) = cfg.minFulltextChars - 1)
    (hl2 : (body_len p2.sections : Int) = cfg.minFulltextChars) :
    run_fulltext [r] [] A B1 sf cfg =
      .ok ⟨[], [⟨r.doi, r.journal, "abstract_only"⟩], 0, 0, 1⟩ ∧
    run_fulltext [r] [] A B2 sf cfg =
      .ok ⟨[canonicalize_record r.doi p2.title p2.sections "pmc" pm r.journal],
        [], 1, 0, 1⟩ := by
  constructor
  · rw [run_fulltext_single r dn pm p1 A B1 sf cfg hdn hA hB1 hca hcb]
    rw [(classifyRow_gate r dn pm p1 sf cfg hpm hreq hmin).1 hl1]
  · rw [run_fulltext_single r dn pm p2 A B2 sf cfg hdn hA hB2 hca hcb]
    rw [(classifyRow_gate r dn pm p2 sf cfg hpm hreq hmin).2 hl2]

theorem c4_content_length_gate_witness :
    run_fulltext [⟨"10.1/x", some "J"⟩] []
        (fun _ => .ok ([("10.1/x", "PMC1")], []))
        (fun _ => .ok ([("PMC1", ⟨"T", [("Intro", SecNode.mk (some "a") [])], none⟩)], []))
        (fun _ => none) { minFulltextChars := 2 } =
      .ok ⟨[], [⟨"10.1/x", some "J", "abstract_only"⟩], 0, 0, 1⟩ ∧
    run_fulltext [⟨"10.1/x", some "J"⟩] []
        (fun _ => .ok ([("10.1/x", "PMC1")], []))
        (fun _ => .ok ([("PMC1", ⟨"T", [("Intro", SecNode.mk (some "ab") [])], none⟩)], []))
        (fun _ => none) { minFulltextChars := 2 } =
      .ok ⟨[canonicalize_record "10.1/x" "T" [("Intro", SecNode.mk (some "ab") [])]
        "pmc" "PMC1" (some "J")], [], 1, 0, 1⟩ :=
  c4_content_length_gate ⟨"10.1/x", some "J"⟩ "10.1/x" "PMC1"
    ⟨"T", [("Intro", SecNode.mk (some "a") [])], none⟩
    ⟨"T", [("Intro", SecNode.mk (some "ab") [])], none⟩
    (fun _ => .ok ([("10.1/x", "PMC1")], []))
    (fun _ => .ok ([("PMC1", ⟨"T", [("Intro", SecNode.mk (some "a") [])], none⟩)], []))
    (fun _ => .ok ([("PMC1", ⟨"T", [("Intro", SecNode.mk (some "ab") [])], none⟩)], []))
    (fun _ => none) { minFulltextChars := 2 }
    (by decide) rfl rfl rfl (by decide) (by decide) (by decide) rfl (by decide)
    (by decide) (by decide)

/-! ## Claim C2 — idempotence of a re-run -/

theorem contains_iff_mem_str (l : List String) (a : String) :
    l.contains a = true ↔ a ∈ l := by
  simp [List.contains]

theorem classifyRow_inl_doi {doiToPmc convFails : List (String × String)}
    {pmcMap : List (String × Parsed)} {sf : String → Option Parsed} {cfg : Config}
    {x : Row × String} {rec : Rec}
    (h : classifyRow doiToPmc convFails pmcMap sf cfg x = .inl rec) :
    rec.doi = x.1.doi := by
  unfold classifyRow at h
  dsimp only at h
  repeat' split at h
  all_goals first
  | (injection h with h; rw [← h]; rfl)
  | injection h

theorem mem_dedupPairs {l : List (Row × String)} {p : Row × String} :
    ∀ {seen : List String}, p ∈ dedupPairs l seen → p ∈ l := by
  induction l with
  | nil => intro seen h; simp [dedupPairs] at h
  | cons q l ih =>
    intro seen h
    unfold dedupPairs at h
    split at h
    · exact List.mem_cons_of_mem _ (ih h)
    · rcases List.mem_cons.mp h with rfl | h2
      · exact List.mem_cons_self _ _
      · exact List.mem_cons_of_mem _ (ih h2)

theorem dfOf_norm {rows : List Row} {p : Row × String} (h : p ∈ dfOf rows) :
    normalize_doi p.1.doi = some p.2 := by
  unfold dfOf at h
  have h2 := mem_dedupPairs h
  rw [List.mem_filterMap] at h2
  obtain ⟨r, _, hr⟩ := h2
  cases hn : normalize_doi r.doi with
  | none => rw [hn] at hr; simp at hr
  | some dn =>
    rw [hn] at hr
    simp only [Option.map_some'] at hr
    injection hr with hr
    rw [← hr]
    exact hn

/-- Claim C2 (amended): a second run against the same input and the output
left by a first run appends nothing and re-reports exactly the first run's
unresolved work; in particular it records zero new failures precisely when
the FIRST run recorded none — then everything short-circuits as already
present and the result set, with all counters, is unchanged. -/
theorem c2_rerun_after_clean_run (rows : List Row) (existing : List Rec)
    (A : List String → Except String (BatchRes String))
    (B : List String → Except String (BatchRes Parsed))
    (sf : String → Option Parsed) (cfg : Config) (r1 : RunResult)
    (h1 : run_fulltext rows existing A B sf cfg = .ok r1)
    (hnf : r1.failures = []) :
    run_fulltext rows r1.records A B sf cfg =
      .ok ⟨r1.records, [], 0, r1.inputUnique, r1.inputUnique⟩ := by
  unfold run_fulltext at h1
  dsimp only at h1
  split at h1
  · simp at h1
  · rename_i pairA doiToPmc convFails hA
    split at h1
    · simp at h1
    · rename_i pairB pmcMap pmcFails hB
      injection h1 with h1
      subst h1
      dsimp only at hnf ⊢
      -- every outstanding row of the first run was accepted
      have hall : ∀ x ∈ todoOf rows existing,
          ∃ rec, classifyRow doiToPmc convFails pmcMap sf cfg x = .inl rec ∧
            rec.doi = x.1.doi ∧
            rec ∈ (List.filterMap (fun o => o.getLeft?)
              (List.map (classifyRow doiToPmc convFails pmcMap sf cfg)
                (todoOf rows existing))) := by
        intro x hx
        have hnone := (List.filterMap_eq_nil_iff.mp hnf)
          (classifyRow doiToPmc convFails pmcMap sf cfg x)
          (List.mem_map_of_mem _ hx)
        cases hcl : classifyRow doiToPmc convFails pmcMap sf cfg x with
        | inr fe => rw [hcl] at hnone; simp [Sum.getRight?_inr] at hnone
        | inl rec =>
          refine ⟨rec, rfl, classifyRow_inl_doi hcl, ?_⟩
          rw [List.mem_filterMap]
          exact ⟨.inl rec, by rw [← hcl]; exact List.mem_map_of_mem _ hx,
            by rw [Sum.getLeft?_inl]⟩
      -- the second run's worklist is empty
      have htodo2 : todoOf rows (existing ++ List.filterMap (fun o => o.getLeft?)
          (List.map (classifyRow doiToPmc convFails pmcMap sf cfg)
            (todoOf rows existing))) = [] := by
        unfold todoOf
        rw [List.filter_eq_nil_iff]
        intro p hp
        simp only [Bool.not_eq_true', Bool.not_eq_false]
        rw [contains_iff_mem_str]
        unfold seenOf
        rw [List.filterMap_append, List.mem_append]
        by_cases hseen : p.2 ∈ seenOf existing
        · exact Or.inl hseen
        · have hxt : p ∈ todoOf rows existing := by
            unfold todoOf
            rw [List.mem_filter]
            refine ⟨hp, ?_⟩
            simp only [Bool.not_eq_true']
            rw [← Bool.not_eq_true, contains_iff_mem_str]
            exact hseen
          obtain ⟨rec, _, hdoi, hmem⟩ := hall p hxt
          right
          rw [List.mem_filterMap]
          refine ⟨rec, hmem, ?_⟩
          rw [hdoi]
          exact dfOf_norm hp
      unfold run_fulltext
      dsimp only
      rw [htodo2]
      rw [show List.map (fun (p : Row × String) => p.2) ([] : List (Row × String)) = []
        from rfl]
      rw [chunkList_nil, mergeBatches]
      dsimp only
      rw [show List.filterMap (fun d => List.lookup d ([] : List (String × String)))
        ([] : List String) = [] from rfl]
      rw [chunkList_nil, mergeBatches]
      simp

theorem c2_rerun_after_clean_run_witness :
    run_fulltext [⟨"10.1/x", some "J"⟩]
        ((⟨[canonicalize_record "10.1/x" "T" [("Intro", SecNode.mk (some "ab") [])]
            "pmc" "PMC1" (some "J")], [], 1, 0, 1⟩ : RunResult)).records
        (fun _ => .ok ([("10.1/x", "PMC1")], []))
        (fun _ => .ok ([("PMC1", ⟨"T", [("Intro", SecNode.mk (some "ab") [])], none⟩)], []))
        (fun _ => none) { minFulltextChars := 2 } =
      .ok ⟨(⟨[canonicalize_record "10.1/x" "T" [("Intro", SecNode.mk (some "ab") [])]
            "pmc" "PMC1" (some "J")], [], 1, 0, 1⟩ : RunResult).records, [], 0,
        (⟨[canonicalize_record "10.1/x" "T" [("Intro", SecNode.mk (some "ab") [])]
            "pmc" "PMC1" (some "J")], [], 1, 0, 1⟩ : RunResult).inputUnique,
        (⟨[canonicalize_record "10.1/x" "T" [("Intro", SecNode.mk (some "ab") [])]
            "pmc" "PMC1" (some "J")], [], 1, 0, 1⟩ : RunResult).inputUnique⟩ :=
  c2_rerun_after_clean_run [⟨"10.1/x", some "J"⟩] []
    (fun _ => .ok ([("10.1/x", "PMC1")], []))
    (fun _ => .ok ([("PMC1", ⟨"T", [("Intro", SecNode.mk (some "ab") [])], none⟩)], []))
    (fun _ => none) { minFulltextChars := 2 }
    ⟨[canonicalize_record "10.1/x" "T" [("Intro", SecNode.mk (some "ab") [])]
        "pmc" "PMC1" (some "J")], [], 1, 0, 1⟩ rfl rfl

/-- Claim C2, counterexample: an identifier that FAILED in the first run is
not in the persisted result set, so a second run against the same input
and the first run's output retries it and records its failure again — the
second run's failure count is 1, not 0, refuting "records zero new
failures; every identifier short-circuits as already present". -/
theorem c2_rerun_cex :
    run_fulltext [⟨"10.1/a", none⟩] []
        (fun b => .ok ([], b.map (fun d => (d, "idconv: no PMCID"))))
        (fun _ => .ok ([], [])) (fun _ => none) {} =
      .ok ⟨[], [⟨"10.1/a", none, "idconv: no PMCID"⟩], 0, 0, 1⟩ ∧
    run_fulltext [⟨"10.1/a", none⟩]
        ((⟨[], [⟨"10.1/a", none, "idconv: no PMCID"⟩], 0, 0, 1⟩ : RunResult)).records
        (fun b => .ok ([], b.map (fun d => (d, "idconv: no PMCID"))))
        (fun _ => .ok ([], [])) (fun _ => none) {} =
      .ok ⟨[], [⟨"10.1/a", none, "idconv: no PMCID"⟩], 0, 0, 1⟩ ∧
    (⟨[], [⟨"10.1/a", none, "idconv: no PMCID"⟩], 0, 0, 1⟩ : RunResult).failures.length ≠ 0 :=
  ⟨rfl, rfl, by decide⟩

/-! ## Claim C8 — failure-ledger freshness -/

/-- Claim C8, counterexample: a completed run that produced no failures
does NOT rewrite the ledger (the CSV is written only under `if failures:`),
so an earlier run's ledger survives — the persisted ledger is the stale
one, not "exactly the failure entries of that run". -/
theorem c8_ledger_stale_cex :
    run_fulltext [] [] (fun _ => .ok ([], [])) (fun _ => .ok ([], []))
        (fun _ => none) {} = .ok ⟨[], [], 0, 0, 0⟩ ∧
    persistLedger (some [⟨"10.1/old", none, "stale"⟩])
        ((⟨[], [], 0, 0, 0⟩ : RunResult)).failures =
      some [⟨"10.1/old", none, "stale"⟩] ∧
    some [(⟨"10.1/old", none, "stale"⟩ : FailureE)] ≠ some ([] : List FailureE) :=
  ⟨rfl, rfl, by decide⟩

/-- Claim C8 (amended): when the current run records at least one failure,
the persisted ledger is exactly that run's failure list (the CSV is
rewritten whole, nothing from earlier runs survives); when the current run
records none, no ledger is written and any earlier run's ledger file
remains in place. -/
theorem c8_ledger_freshness_amended :
    (∀ (prev : Option (List FailureE)) (failures : List FailureE),
      failures ≠ [] → persistLedger prev failures = some failures) ∧
    (∀ prev : Option (List FailureE), persistLedger prev [] = prev) := by
  constructor
  · intro prev failures h
    unfold persistLedger
    rw [if_neg (by simpa using h)]
  · intro prev
    rfl

theorem c8_ledger_freshness_amended_witness :
    persistLedger (some [⟨"10.1/old", none, "stale"⟩])
        [⟨"10.1/a", none, "abstract_only"⟩] =
      some [⟨"10.1/a", none, "abstract_only"⟩] :=
  c8_ledger_freshness_amended.1 (some [⟨"10.1/old", none, "stale"⟩])
    [⟨"10.1/a", none, "abstract_only"⟩] (by decide)
